import Mathlib

/-!
Verification of the JSON extraction/repair utility
(`extractJson`, `isCompleteJson`, `completeTaskJson` from
`src/ai-providers/custom-sdk/claude-code/json-extractor.js`).

The JavaScript source is shallowly embedded over `List Char` / `String`:

* `JSON.parse` is modeled by `jsonParse`, a fuel-based strict recursive
  descent parser for RFC 8259 JSON.  Numbers are kept as their source
  token text (the claims under verification never inspect numeric
  values, only parseability, truthiness and structural equality, and
  the token model is stable under the re-parse used in the claims).
  Escaped lone UTF-16 surrogates are mapped to U+FFFD since Lean
  strings hold Unicode scalar values; no claim distinguishes them.
* `JSON.stringify(v, null, 2)` is modeled by `jsStringify`.  Object
  fields are kept in insertion order (JavaScript's integer-like-key
  reordering during enumeration is not modeled; every claim below is
  stated up to field lookup, never up to enumeration order).
* Each regular-expression replacement of the source is implemented as
  an explicit scanner with JavaScript semantics (leftmost match,
  greedy repetition, global/multiline flags exactly where the source
  has them; the multiline anchors fire at the ECMAScript line
  terminators LF, CR, U+2028 and U+2029).
* JavaScript exceptions (`JSON.parse` throwing, `try`/`catch`) are
  modeled in the `Except String` monad by the `...E` variants, which
  mirror the source's control flow; the pure functions are the
  corresponding total extractions.
-/

set_option maxRecDepth 16384
set_option maxHeartbeats 2000000

namespace JsonExtractor

/-! ### Characters and whitespace classes -/

/-- Left curly brace character. -/
def lbrace : Char := Char.ofNat 123

/-- Right curly brace character. -/
def rbrace : Char := Char.ofNat 125

/-- Left square bracket character. -/
def lbrack : Char := '['

/-- Right square bracket character. -/
def rbrack : Char := ']'

/-- Double quote character. -/
def dquote : Char := '"'

/-- Single quote character. -/
def squote : Char := Char.ofNat 39

/-- Backslash character. -/
def bslash : Char := '\\'

/-- Backtick character. -/
def btick : Char := Char.ofNat 96

/-- Replacement character U+FFFD, used for escaped lone surrogates. -/
def fffd : Char := Char.ofNat 0xFFFD

/-- JSON insignificant whitespace (RFC 8259): space, tab, LF, CR. -/
def isJsonWs (c : Char) : Bool :=
  c = ' ' || c = '\t' || c = '\n' || c = '\r'

/-- JavaScript's whitespace class, used both by `String.prototype.trim`
and by the regex class `\s`. -/
def isJsWs (c : Char) : Bool :=
  c.toNat = 9 || c.toNat = 10 || c.toNat = 11 || c.toNat = 12 || c.toNat = 13 ||
  c.toNat = 32 || c.toNat = 160 || c.toNat = 0x1680 ||
  (0x2000 ≤ c.toNat && c.toNat ≤ 0x200A) ||
  c.toNat = 0x2028 || c.toNat = 0x2029 || c.toNat = 0x202F ||
  c.toNat = 0x205F || c.toNat = 0x3000 || c.toNat = 0xFEFF

/-- ECMAScript line terminators, at which the multiline regex anchors
`^` and `$` fire: LF, CR, U+2028 (LINE SEPARATOR) and U+2029
(PARAGRAPH SEPARATOR). -/
def isLineTerm (c : Char) : Bool :=
  c = '\n' || c = '\r' || c.toNat = 0x2028 || c.toNat = 0x2029

/-- The two line terminators that are control characters; these cannot
occur raw inside a JSON string literal. -/
def isNlCr (c : Char) : Bool :=
  c = '\n' || c = '\r'

/-- The two line terminators that may occur raw inside a JSON string
literal: U+2028 and U+2029. -/
def isLS (c : Char) : Bool :=
  c.toNat = 0x2028 || c.toNat = 0x2029

/-- Regex `\w` class: ASCII letters, digits, underscore. -/
def isWordChar (c : Char) : Bool :=
  c.isAlpha || c.isDigit || c = '_'

/-- First character of a JavaScript identifier per the source's
object-literal key regex: `[a-zA-Z_$]`. -/
def isIdentStart (c : Char) : Bool :=
  c.isAlpha || c = '_' || c = '$'

/-- Continuation character of the key regex: `[a-zA-Z0-9_$]`. -/
def isIdentCont (c : Char) : Bool :=
  c.isAlpha || c.isDigit || c = '_' || c = '$'

/-- Hexadecimal digit test. -/
def isHexDigit (c : Char) : Bool :=
  c.isDigit || (('a' ≤ c && c ≤ 'f') || ('A' ≤ c && c ≤ 'F'))

/-- Value of a hexadecimal digit. -/
def hexVal (c : Char) : Nat :=
  if c.isDigit then c.toNat - 48
  else if 'a' ≤ c && c ≤ 'f' then c.toNat - 87
  else c.toNat - 55

/-- Drop a trailing run of JavaScript whitespace. -/
def dropTrailWs (l : List Char) : List Char :=
  (l.reverse.dropWhile isJsWs).reverse

/-- JavaScript `String.prototype.trim` on character lists. -/
def jsTrimL (l : List Char) : List Char :=
  dropTrailWs (l.dropWhile isJsWs)

/-- JavaScript `String.prototype.trim`. -/
def jsTrim (s : String) : String :=
  String.mk (jsTrimL s.data)

/-! ### The JSON data model -/

/-- JSON values as produced by `JSON.parse`.  Numbers carry their
source token; objects are association lists in insertion order with
unique keys (later duplicates overwrite in place, as in JavaScript). -/
inductive Json where
  | null : Json
  | bool (b : Bool) : Json
  | num (tok : String) : Json
  | str (s : String) : Json
  | arr (elems : List Json) : Json
  | obj (fields : List (String × Json)) : Json

/-- Property assignment on an object: overwrite in place if the key is
present, otherwise append (JavaScript property creation order). -/
def objInsert (m : List (String × Json)) (k : String) (v : Json) :
    List (String × Json) :=
  match m with
  | [] => [(k, v)]
  | (k', v') :: rest =>
    if k' = k then (k', v) :: rest else (k', v') :: objInsert rest k v

/-- Property lookup on an object. -/
def objLookup (m : List (String × Json)) (k : String) : Option Json :=
  match m with
  | [] => none
  | (k', v) :: rest => if k' = k then some v else objLookup rest k

/-! ### The strict JSON parser (model of `JSON.parse`) -/

/-- Skip JSON insignificant whitespace. -/
def skipWs (l : List Char) : List Char := l.dropWhile isJsonWs

/-- Read four hexadecimal digits. -/
def hex4 (l : List Char) : Option (Nat × List Char) :=
  match l with
  | a :: b :: c :: d :: r =>
    if isHexDigit a && isHexDigit b && isHexDigit c && isHexDigit d then
      some (((hexVal a * 16 + hexVal b) * 16 + hexVal c) * 16 + hexVal d, r)
    else none
  | _ => none

/-- One step of parsing the remainder of a string literal (after the
opening quote), returning the decoded content, abstracted over the
recursive call.  Unescaped control characters are rejected; surrogate
pairs in `\u` escapes are combined; lone escaped surrogates become
U+FFFD. -/
def parseStrRestStep
    (rec : List Char → Option (List Char × List Char)) :
    List Char → Option (List Char × List Char)
  | [] => none
  | c :: r =>
    if c = dquote then some ([], r)
    else if c = bslash then
      match r with
      | [] => none
      | e :: r2 =>
        if e = dquote then
          (rec r2).map (fun p => (dquote :: p.1, p.2))
        else if e = bslash then
          (rec r2).map (fun p => (bslash :: p.1, p.2))
        else if e = '/' then
          (rec r2).map (fun p => ('/' :: p.1, p.2))
        else if e = 'b' then
          (rec r2).map (fun p => (Char.ofNat 8 :: p.1, p.2))
        else if e = 'f' then
          (rec r2).map (fun p => (Char.ofNat 12 :: p.1, p.2))
        else if e = 'n' then
          (rec r2).map (fun p => ('\n' :: p.1, p.2))
        else if e = 'r' then
          (rec r2).map (fun p => ('\r' :: p.1, p.2))
        else if e = 't' then
          (rec r2).map (fun p => ('\t' :: p.1, p.2))
        else if e = 'u' then
          match hex4 r2 with
          | none => none
          | some (code, r3) =>
            if 0xD800 ≤ code ∧ code ≤ 0xDBFF then
              match r3 with
              | b1 :: b2 :: r4 =>
                if b1 = bslash ∧ b2 = 'u' then
                  match hex4 r4 with
                  | none => none
                  | some (lo, r5) =>
                    if 0xDC00 ≤ lo ∧ lo ≤ 0xDFFF then
                      (rec r5).map (fun p =>
                        (Char.ofNat
                          (0x10000 + (code - 0xD800) * 0x400 + (lo - 0xDC00))
                            :: p.1, p.2))
                    else (rec r3).map (fun p => (fffd :: p.1, p.2))
                else (rec r3).map (fun p => (fffd :: p.1, p.2))
              | _ => (rec r3).map (fun p => (fffd :: p.1, p.2))
            else if 0xDC00 ≤ code ∧ code ≤ 0xDFFF then
              (rec r3).map (fun p => (fffd :: p.1, p.2))
            else (rec r3).map (fun p => (Char.ofNat code :: p.1, p.2))
        else none
    else if c.toNat < 0x20 then none
    else (rec r).map (fun p => (c :: p.1, p.2))

/-- Parse the remainder of a string literal, with fuel. -/
def parseStrRest : Nat → List Char → Option (List Char × List Char)
  | 0, _ => none
  | f + 1, l => parseStrRestStep (parseStrRest f) l

/-- Split a leading digit run. -/
def digitRun (l : List Char) : List Char × List Char :=
  (l.takeWhile Char.isDigit, l.dropWhile Char.isDigit)

/-- Optional leading minus sign of a JSON number. -/
def numSign (l : List Char) : List Char × List Char :=
  match l with
  | c :: r => if c = '-' then ([c], r) else ([], l)
  | [] => ([], l)

/-- Integer part of a JSON number: `0` or a nonzero-led digit run. -/
def numInt (l1 : List Char) : Option (List Char × List Char) :=
  match l1 with
  | [] => none
  | c :: r =>
    if ¬ c.isDigit then none
    else if c = '0' then some ([c], r)
    else some (digitRun l1)

/-- Optional fraction part appended to the token read so far. -/
def numFrac (itok l2 : List Char) : Option (List Char × List Char) :=
  match l2 with
  | d :: r2 =>
    if d = '.' then
      if (digitRun r2).1 = [] then none
      else some (itok ++ d :: (digitRun r2).1, (digitRun r2).2)
    else some (itok, l2)
  | [] => some (itok, l2)

/-- Optional sign of an exponent. -/
def numExpSign (r4 : List Char) : List Char × List Char :=
  match r4 with
  | s :: r5' => if s = '+' ∨ s = '-' then ([s], r5') else ([], r4)
  | [] => ([], r4)

/-- Optional exponent part appended to the token read so far. -/
def numExp (tok2 l3 : List Char) : Option (List Char × List Char) :=
  match l3 with
  | e :: r4 =>
    if e = 'e' ∨ e = 'E' then
      if (digitRun (numExpSign r4).2).1 = [] then none
      else some (tok2 ++ e :: (numExpSign r4).1 ++ (digitRun (numExpSign r4).2).1,
        (digitRun (numExpSign r4).2).2)
    else some (tok2, l3)
  | [] => some (tok2, l3)

/-- Parse a JSON number token (RFC 8259 grammar), returning the token
text and the rest. -/
def parseNum (l : List Char) : Option (List Char × List Char) :=
  match numInt (numSign l).2 with
  | none => none
  | some (itok, l2) =>
    match numFrac itok l2 with
    | none => none
    | some (tok2, l3) =>
      match numExp tok2 l3 with
      | none => none
      | some (tok3, l4) => some ((numSign l).1 ++ tok3, l4)

/-- Parsing modes of the recursive descent core: a single value, the
members of an object (positioned at a key), or the elements of an
array (positioned at a value). -/
inductive PMode where
  | value : PMode
  | members (acc : List (String × Json)) : PMode
  | elements (acc : List Json) : PMode

/-- Results of the core: a value, an object's field list, or an
array's element list. -/
inductive POut where
  | val (v : Json) : POut
  | fields (m : List (String × Json)) : POut
  | items (xs : List Json) : POut

/-- One dispatch step of the recursive descent core, abstracted over
the recursive call. -/
def parseStep (rec : PMode → List Char → Option (POut × List Char)) :
    PMode → List Char → Option (POut × List Char)
  | PMode.value, l =>
    match skipWs l with
    | [] => none
    | c :: r =>
      if c = lbrace then
        match skipWs r with
        | [] => none
        | c2 :: r2 =>
          if c2 = rbrace then some (POut.val (Json.obj []), r2)
          else
            match rec (PMode.members []) (skipWs r) with
            | some (POut.fields m, rest) => some (POut.val (Json.obj m), rest)
            | _ => none
      else if c = lbrack then
        match skipWs r with
        | [] => none
        | c2 :: r2 =>
          if c2 = rbrack then some (POut.val (Json.arr []), r2)
          else
            match rec (PMode.elements []) (skipWs r) with
            | some (POut.items xs, rest) => some (POut.val (Json.arr xs), rest)
            | _ => none
      else if c = dquote then
        match parseStrRest (r.length + 1) r with
        | some (cs, rest) => some (POut.val (Json.str (String.mk cs)), rest)
        | none => none
      else if c = 't' then
        match r with
        | 'r' :: 'u' :: 'e' :: r2 => some (POut.val (Json.bool true), r2)
        | _ => none
      else if c = 'f' then
        match r with
        | 'a' :: 'l' :: 's' :: 'e' :: r2 => some (POut.val (Json.bool false), r2)
        | _ => none
      else if c = 'n' then
        match r with
        | 'u' :: 'l' :: 'l' :: r2 => some (POut.val Json.null, r2)
        | _ => none
      else
        match parseNum (c :: r) with
        | some (tok, rest) => some (POut.val (Json.num (String.mk tok)), rest)
        | none => none
  | PMode.members acc, l =>
    match l with
    | [] => none
    | c :: r =>
      if c = dquote then
        match parseStrRest (r.length + 1) r with
        | none => none
        | some (kcs, r2) =>
          match skipWs r2 with
          | [] => none
          | c2 :: r3 =>
            if c2 = ':' then
              match rec PMode.value r3 with
              | some (POut.val v, r4) =>
                let acc2 := objInsert acc (String.mk kcs) v
                match skipWs r4 with
                | [] => none
                | c3 :: r5 =>
                  if c3 = ',' then rec (PMode.members acc2) (skipWs r5)
                  else if c3 = rbrace then some (POut.fields acc2, r5)
                  else none
              | _ => none
            else none
      else none
  | PMode.elements acc, l =>
    match rec PMode.value l with
    | some (POut.val v, r) =>
      match skipWs r with
      | [] => none
      | c :: r2 =>
        if c = ',' then rec (PMode.elements (v :: acc)) r2
        else if c = rbrack then some (POut.items (v :: acc).reverse, r2)
        else none
    | _ => none

/-- The fuel-based recursive descent core of the `JSON.parse` model. -/
def parseCore : Nat → PMode → List Char → Option (POut × List Char)
  | 0, _, _ => none
  | f + 1, mode, l => parseStep (parseCore f) mode l

/-- Unfolding equation for positive fuel. -/
theorem parseCore_succ (f : Nat) (mode : PMode) (l : List Char) :
    parseCore (f + 1) mode l = parseStep (parseCore f) mode l := rfl

/-- Model of `JSON.parse`: a strict top-level parse of the whole
string; `none` models a thrown `SyntaxError`. -/
def jsonParse (s : String) : Option Json :=
  match parseCore (2 * s.data.length + 4) PMode.value s.data with
  | some (POut.val v, rest) => if skipWs rest = [] then some v else none
  | _ => none

/-! ### The serializer (model of `JSON.stringify(v, null, 2)`) -/

/-- Lowercase hexadecimal digit. -/
def hexDigitChar (n : Nat) : Char :=
  if n < 10 then Char.ofNat (48 + n) else Char.ofNat (87 + n)

/-- Escape one character of a string per `JSON.stringify`. -/
def escChar (c : Char) : List Char :=
  if c = dquote then [bslash, dquote]
  else if c = bslash then [bslash, bslash]
  else if c.toNat = 8 then [bslash, 'b']
  else if c.toNat = 9 then [bslash, 't']
  else if c.toNat = 10 then [bslash, 'n']
  else if c.toNat = 12 then [bslash, 'f']
  else if c.toNat = 13 then [bslash, 'r']
  else if c.toNat < 32 then
    [bslash, 'u', '0', '0', hexDigitChar (c.toNat / 16), hexDigitChar (c.toNat % 16)]
  else [c]

/-- Quote a string per `JSON.stringify`. -/
def quoteStr (s : String) : List Char :=
  dquote :: (s.data.map escChar).flatten ++ [dquote]

/-- Join pieces with a separator. -/
def joinSep (sep : List Char) : List (List Char) → List Char
  | [] => []
  | [p] => p
  | p :: q :: rest => p ++ sep ++ joinSep sep (q :: rest)

/-- Fuel-based core of the pretty-printer with two-space indentation;
`ind` is the current indentation. -/
def sJson : Nat → List Char → Json → List Char
  | 0, _, _ => []
  | f + 1, ind, v =>
    match v with
    | Json.null => 'n' :: 'u' :: 'l' :: 'l' :: []
    | Json.bool true => 't' :: 'r' :: 'u' :: 'e' :: []
    | Json.bool false => 'f' :: 'a' :: 'l' :: 's' :: 'e' :: []
    | Json.num t => t.data
    | Json.str s => quoteStr s
    | Json.arr [] => [lbrack, rbrack]
    | Json.arr xs =>
      let ind2 := ind ++ [' ', ' ']
      lbrack :: '\n' ::
        joinSep [',', '\n'] (xs.map (fun x => ind2 ++ sJson f ind2 x)) ++
        '\n' :: ind ++ [rbrack]
    | Json.obj [] => [lbrace, rbrace]
    | Json.obj fs =>
      let ind2 := ind ++ [' ', ' ']
      lbrace :: '\n' ::
        joinSep [',', '\n']
          (fs.map (fun kv =>
            ind2 ++ quoteStr kv.1 ++ ':' :: ' ' :: sJson f ind2 kv.2)) ++
        '\n' :: ind ++ [rbrace]

/-- Model of `JSON.stringify(v, null, 2)`.  The fuel only needs to
exceed the nesting depth of the value; callers pass a bound derived
from the length of the string the value was parsed from. -/
def jsStringifyN (fuel : Nat) (v : Json) : String :=
  String.mk (sJson fuel [] v)

/-! ### Regex stage scanners

Each definition below implements exactly one `replace` call of the
source, with JavaScript regex semantics: scanning for the leftmost
match, greedy repetition, and the global/multiline flags exactly where
the source regex carries them. -/

/-- Decide whether `pre` is a prefix of `l`. -/
def isPre (pre l : List Char) : Bool :=
  match pre, l with
  | [], _ => true
  | _ :: _, [] => false
  | p :: ps, c :: cs => p = c && isPre ps cs

/-- The fence opener tail `json`. -/
def fenceJsonTag : List Char := [btick, btick, btick, 'j', 's', 'o', 'n']

/-- The bare fence tag of three backticks. -/
def fenceTag : List Char := [btick, btick, btick]

/-- Global multiline replace of `^<tag>\s*` with the empty string
(`.replace(/^```json\s*\/gm, '')` and `.replace(/^```\s*\/gm, '')`):
at every line start (the start of the text, or the position after any
ECMAScript line terminator), a literal tag followed by a greedy
whitespace run is removed; scanning resumes after the match. -/
def stripFenceOpen (tag : List Char) : Nat → Bool → List Char → List Char
  | 0, _, l => l
  | f + 1, atLS, l =>
    if atLS && isPre tag l then
      let rest := l.drop tag.length
      let ws := rest.takeWhile isJsWs
      let atLS2 :=
        match ws.getLast? with
        | some t => isLineTerm t
        | none => false
      stripFenceOpen tag f atLS2 (rest.drop ws.length)
    else
      match l with
      | [] => []
      | c :: r => c :: stripFenceOpen tag f (isLineTerm c) r

/-- Index of the last occurrence of `c`. -/
def lastIdxOf (c : Char) (l : List Char) : Option Nat :=
  match l.reverse.findIdx? (· = c) with
  | some i => some (l.length - 1 - i)
  | none => none

/-- Index of the last character satisfying `p`. -/
def lastIdxOfP (p : Char → Bool) (l : List Char) : Option Nat :=
  match l.reverse.findIdx? p with
  | some i => some (l.length - 1 - i)
  | none => none

/-- Global multiline replace of ```` /```\s*$/ ```` with the empty
string: a literal three-backtick fence, then a greedy `\s*` run that
backtracks so that `$` (end of string, or just before an ECMAScript
line terminator in multiline mode) matches; scanning resumes after the
match. -/
def stripFenceClose : Nat → List Char → List Char
  | 0, l => l
  | f + 1, l =>
    if isPre fenceTag l then
      let y := l.drop 3
      let w := y.takeWhile isJsWs
      if y.drop w.length = [] then []
      else
        match lastIdxOfP isLineTerm w with
        | some k => stripFenceClose f (y.drop k)
        | none =>
          match l with
          | [] => []
          | c :: r => c :: stripFenceClose f r
    else
      match l with
      | [] => []
      | c :: r => c :: stripFenceClose f r

/-- Anchored replace of `^<kw>\s+\w+\s*=\s*` with the empty string
(`const`/`let`/`var` declaration prefixes). -/
def stripDecl (kw : List Char) (l : List Char) : List Char :=
  if isPre kw l then
    let r1 := l.drop kw.length
    let w1 := r1.takeWhile isJsWs
    if w1 = [] then l
    else
      let r2 := r1.drop w1.length
      let id := r2.takeWhile isWordChar
      if id = [] then l
      else
        let r3 := r2.drop id.length
        let r4 := r3.dropWhile isJsWs
        match r4 with
        | c :: r5 => if c = '=' then r5.dropWhile isJsWs else l
        | [] => l
  else l

/-- Replace of `/;?\s*$/` with the empty string: the leftmost match is
an optional semicolon followed by the trailing whitespace run. -/
def semiStrip (l : List Char) : List Char :=
  let u := dropTrailWs l
  if u.getLast? = some ';' then u.dropLast else u

/-- The greedy object match `/{[\s\S]*}/`: from the first `{` to the
last `}`, when the latter comes after the former. -/
def objectMatch (l : List Char) : Option (List Char) :=
  match l.findIdx? (· = lbrace), lastIdxOf rbrace l with
  | some i, some j => if i < j then some ((l.take (j + 1)).drop i) else none
  | _, _ => none

/-- The greedy array match `/\[[\s\S]*\]/`. -/
def arrayMatch (l : List Char) : Option (List Char) :=
  match l.findIdx? (· = lbrack), lastIdxOf rbrack l with
  | some i, some j => if i < j then some ((l.take (j + 1)).drop i) else none
  | _, _ => none

/-- One-shot leftmost replace: `m` attempts a match at the head and on
success yields the replacement text and the rest after the match. -/
def replaceOnce (m : List Char → Option (List Char × List Char)) :
    Nat → List Char → List Char
  | 0, l => l
  | f + 1, l =>
    match m l with
    | some (tpl, rest) => tpl ++ rest
    | none =>
      match l with
      | [] => []
      | c :: r => c :: replaceOnce m f r

/-- Head matcher for `<field>\s*:\s*$` (match must end the string). -/
def mFieldColonEnd (field tpl : List Char) (l : List Char) :
    Option (List Char × List Char) :=
  if isPre field l then
    let r1 := (l.drop field.length).dropWhile isJsWs
    match r1 with
    | c :: r2 =>
      if c = ':' then
        if r2.dropWhile isJsWs = [] then some (tpl, []) else none
      else none
    | [] => none
  else none

/-- Head matcher for `<field>\s*:\s*<term>` with `term` a literal
closing character. -/
def mFieldColonTerm (field : List Char) (term : Char) (tpl : List Char)
    (l : List Char) : Option (List Char × List Char) :=
  if isPre field l then
    let r1 := (l.drop field.length).dropWhile isJsWs
    match r1 with
    | c :: r2 =>
      if c = ':' then
        match r2.dropWhile isJsWs with
        | d :: r3 => if d = term then some (tpl, r3) else none
        | [] => none
      else none
    | [] => none
  else none

/-- Head matcher for the bare `/:\s*$/`. -/
def mColonEnd (tpl : List Char) (l : List Char) :
    Option (List Char × List Char) :=
  match l with
  | c :: r =>
    if c = ':' then
      if r.dropWhile isJsWs = [] then some (tpl, []) else none
    else none
  | [] => none

/-- Head matcher for the bare `/:\s*<term>/`. -/
def mColonTerm (term : Char) (tpl : List Char) (l : List Char) :
    Option (List Char × List Char) :=
  match l with
  | c :: r =>
    if c = ':' then
      match r.dropWhile isJsWs with
      | d :: r2 => if d = term then some (tpl, r2) else none
      | [] => none
    else none
  | [] => none

/-- Head matcher for `/,(\s*[}\]])/` replaced by `'$1'`: the comma is
dropped, the captured whitespace and closing bracket are kept. -/
def mCommaClose (l : List Char) : Option (List Char × List Char) :=
  match l with
  | c :: r =>
    if c = ',' then
      let w := r.takeWhile isJsWs
      match r.drop w.length with
      | d :: r2 =>
        if d = rbrace ∨ d = rbrack then some (w ++ [d], r2) else none
      | [] => none
    else none
  | [] => none

/-- Quoted field literal `"<name>"`. -/
def qfield (name : List Char) : List Char := dquote :: name ++ [dquote]

/-- The four string fields of the `title|description|details|testStrategy`
alternation, in the source's order. -/
def strFields : List (List Char) :=
  [['t','i','t','l','e'],
   ['d','e','s','c','r','i','p','t','i','o','n'],
   ['d','e','t','a','i','l','s'],
   ['t','e','s','t','S','t','r','a','t','e','g','y']]

/-- Alternation matcher: first alternative that matches at the head. -/
def mAlt (ms : List (List Char → Option (List Char × List Char)))
    (l : List Char) : Option (List Char × List Char) :=
  match ms with
  | [] => none
  | m :: rest =>
    match m l with
    | some r => some r
    | none => mAlt rest l

/-- Replacement text `"<name>": ""` for a dangling string field. -/
def strFieldTpl (name : List Char) (suffix : List Char) : List Char :=
  qfield name ++ ':' :: ' ' :: dquote :: dquote :: suffix

/-- The `dependencies` field literal. -/
def depsField : List Char :=
  ['d','e','p','e','n','d','e','n','c','i','e','s']

/-- The `subtasks` field literal. -/
def subtasksField : List Char := ['s','u','b','t','a','s','k','s']

/-- Replacement `"<name>": []` for a dangling array field. -/
def arrFieldTpl (name : List Char) (suffix : List Char) : List Char :=
  qfield name ++ ':' :: ' ' :: lbrack :: rbrack :: suffix

/-- The structural repair chain of the source (lines 43–74), applied in
order to the failed candidate. -/
def repairChain (l : List Char) : List Char :=
  let n := l.length + 1
  let s1 := replaceOnce (mFieldColonEnd (qfield depsField) (arrFieldTpl depsField [])) n l
  let s2 := replaceOnce (mFieldColonTerm (qfield depsField) rbrace (arrFieldTpl depsField [rbrace])) (s1.length + 1) s1
  let s3 := replaceOnce (mFieldColonTerm (qfield depsField) ',' (arrFieldTpl depsField [','])) (s2.length + 1) s2
  let s4 := replaceOnce (mFieldColonEnd (qfield subtasksField) (arrFieldTpl subtasksField [])) (s3.length + 1) s3
  let s5 := replaceOnce (mFieldColonTerm (qfield subtasksField) rbrace (arrFieldTpl subtasksField [rbrace])) (s4.length + 1) s4
  let s6 := replaceOnce (mFieldColonTerm (qfield subtasksField) ',' (arrFieldTpl subtasksField [','])) (s5.length + 1) s5
  let s7 := replaceOnce (mAlt (strFields.map (fun nm => mFieldColonEnd (qfield nm) (strFieldTpl nm [])))) (s6.length + 1) s6
  let s8 := replaceOnce (mAlt (strFields.map (fun nm => mFieldColonTerm (qfield nm) rbrace (strFieldTpl nm [rbrace])))) (s7.length + 1) s7
  let s9 := replaceOnce (mAlt (strFields.map (fun nm => mFieldColonTerm (qfield nm) ',' (strFieldTpl nm [','])))) (s8.length + 1) s8
  let s10 := replaceOnce (mColonEnd (':' :: ' ' :: dquote :: dquote :: [])) (s9.length + 1) s9
  let s11 := replaceOnce (mColonTerm rbrace (':' :: ' ' :: dquote :: dquote :: rbrace :: [])) (s10.length + 1) s10
  let s12 := replaceOnce (mColonTerm ',' (':' :: ' ' :: dquote :: dquote :: ',' :: [])) (s11.length + 1) s11
  let s13 := replaceOnce mCommaClose (s12.length + 1) s12
  let s14 :=
    if s13.head? = some lbrace ∧ s13.getLast? ≠ some rbrace then s13 ++ [rbrace]
    else s13
  if s14.head? = some lbrack ∧ s14.getLast? ≠ some rbrack then s14 ++ [rbrack]
  else s14

/-- Global replace of `/([{,]\s*)([a-zA-Z_$][a-zA-Z0-9_$]*)\s*:/g` with
`'$1"$2":'`: quote unquoted object-literal keys. -/
def convKeys : Nat → List Char → List Char
  | 0, l => l
  | _ + 1, [] => []
  | f + 1, c :: r =>
    if c = lbrace ∨ c = ',' then
      let w := r.takeWhile isJsWs
      let r2 := r.drop w.length
      match r2 with
      | d :: _ =>
        if isIdentStart d then
          let id := r2.takeWhile isIdentCont
          let r3 := (r2.drop id.length).dropWhile isJsWs
          match r3 with
          | e :: r4 =>
            if e = ':' then
              c :: w ++ dquote :: id ++ dquote :: ':' :: convKeys f r4
            else c :: convKeys f r
          | [] => c :: convKeys f r
        else c :: convKeys f r
      | [] => c :: convKeys f r
    else c :: convKeys f r

/-- Global replace of every single quote by a double quote. -/
def convQuotes (l : List Char) : List Char :=
  l.map (fun c => if c = squote then dquote else c)

/-- The object-literal conversion stage (applied to the matched
candidate, not to the repaired one). -/
def convertStage (l : List Char) : List Char :=
  convQuotes (convKeys (l.length + 1) l)

/-! ### The three source functions -/

/-- The candidate selection pipeline of `extractJson` before the first
parse attempt: trim, fence stripping, declaration stripping, trailing
semicolon removal, then the greedy object/array match. -/
def matchedStage (text : String) : List Char :=
  let t0 := jsTrimL text.data
  let t1 := stripFenceOpen fenceJsonTag (t0.length + 1) true t0
  let t2 := stripFenceOpen fenceTag (t1.length + 1) true t1
  let t3 := stripFenceClose (t2.length + 1) t2
  let t4 := stripDecl ['c','o','n','s','t'] t3
  let t5 := stripDecl ['l','e','t'] t4
  let t6 := stripDecl ['v','a','r'] t5
  let t7 := semiStrip t6
  match objectMatch t7 with
  | some o => o
  | none =>
    match arrayMatch t7 with
    | some a => a
    | none => t7

/-- Model of the source's `extractJson`. -/
def extractJson (text : String) : String :=
  let jt := matchedStage text
  match jsonParse (String.mk jt) with
  | some _ => String.mk jt
  | none =>
    let fixed := repairChain jt
    match jsonParse (String.mk fixed) with
    | some _ => String.mk fixed
    | none =>
      let conv := convertStage jt
      match jsonParse (String.mk conv) with
      | some _ => String.mk conv
      | none => text

/-- Field-value incompleteness test of `isCompleteJson`: `null`,
`undefined` (unrepresentable in parsed JSON) or a string that trims to
empty. -/
def valIncomplete (v : Json) : Bool :=
  match v with
  | Json.null => true
  | Json.str s => jsTrim s = ""
  | _ => false

/-- Model of the source's `isCompleteJson`. -/
def isCompleteJson (jsonText : String) : Bool :=
  match jsonParse jsonText with
  | none => false
  | some v =>
    match v with
    | Json.obj m =>
      if (objLookup m "title").isSome || (objLookup m "description").isSome then
        ! m.any (fun kv => valIncomplete kv.2)
      else true
    | Json.arr _ => true
    | _ => false

/-- Truthiness of a parsed JSON value as a JavaScript value. -/
def truthy (v : Json) : Bool :=
  match v with
  | Json.null => false
  | Json.bool b => b
  | Json.num t =>
    !(t.data.takeWhile (fun c => c ≠ 'e' ∧ c ≠ 'E')).all
      (fun c => !c.isDigit || c = '0')
  | Json.str s => s ≠ ""
  | _ => true

/-- Spread of a parsed JSON value into an object literal, as its own
enumerable properties: objects give their fields, arrays their
elements under the index keys, scalars and `null` nothing (the source
replaces them by `{}` first). -/
def spreadFields (v : Json) : List (String × Json) :=
  match v with
  | Json.obj m => m
  | Json.arr xs => xs.enum.map (fun p => (toString p.1, p.2))
  | _ => []

/-- Choose a parsed field when truthy, a default otherwise (`parsed.f
|| default`). -/
def pickOr (o : Option Json) (d : Json) : Json :=
  match o with
  | some v => if truthy v then v else d
  | none => d

/-- The canned error-recovery task of `completeTaskJson`'s catch
branch. -/
def cannedTask : Json :=
  Json.obj
    [("title", Json.str "Error Recovery Task"),
     ("description", Json.str "Task created due to JSON parsing error"),
     ("details", Json.str "Original AI response could not be parsed. Please review and update."),
     ("testStrategy", Json.str "Manual verification required"),
     ("dependencies", Json.arr [])]

/-- The defaults record of `completeTaskJson`: each string field keeps
the parsed value when truthy and falls back to the fixed default;
`dependencies` keeps the parsed value only when it is an array
(`Array.isArray`). -/
def defaultsFor (parsed : List (String × Json)) : List (String × Json) :=
  [("title", pickOr (objLookup parsed "title") (Json.str "Generated Task")),
   ("description", pickOr (objLookup parsed "description")
      (Json.str "Task generated from incomplete AI response")),
   ("details", pickOr (objLookup parsed "details")
      (Json.str "Please review and update task details")),
   ("testStrategy", pickOr (objLookup parsed "testStrategy")
      (Json.str "Manual verification required")),
   ("dependencies",
      match objLookup parsed "dependencies" with
      | some (Json.arr a) => Json.arr a
      | _ => Json.arr [])]

/-- The spread merge `{ ...defaults, ...parsed }`. -/
def spreadMerge (base parsed : List (String × Json)) : List (String × Json) :=
  parsed.foldl (fun acc kv => objInsert acc kv.1 kv.2) base

/-- The merged-and-forced field list of `completeTaskJson` on a parsed
value. -/
def completedFields (v : Json) : List (String × Json) :=
  let parsed := spreadFields v
  let completed := spreadMerge (defaultsFor parsed) parsed
  match objLookup completed "dependencies" with
  | some (Json.arr _) => completed
  | _ => objInsert completed "dependencies" (Json.arr [])

/-- Serialization fuel for `completeTaskJson`: the nesting depth of
any value parsed from the input is bounded by the input length. -/
def ctFuel (incompleteJson : String) : Nat :=
  incompleteJson.data.length + 16

/-- Model of the source's `completeTaskJson`. -/
def completeTaskJson (incompleteJson : String) : String :=
  match jsonParse incompleteJson with
  | none => jsStringifyN (ctFuel incompleteJson) cannedTask
  | some v => jsStringifyN (ctFuel incompleteJson) (Json.obj (completedFields v))

/-! ### Exception-level embedding (`try`/`catch` structure)

The `...E` variants mirror the source's control flow in the
`Except String` monad, with `JSON.parse` throwing a `SyntaxError`. -/

/-- Model of `JSON.parse` as a throwing operation. -/
def jsonParseE (s : String) : Except String Json :=
  match jsonParse s with
  | some v => Except.ok v
  | none => Except.error "SyntaxError: unexpected token in JSON"

/-- A `try ... catch (e) ...` block over the exception monad. -/
def tryE {α : Type} (body : Except String α) (handler : String → Except String α) :
    Except String α :=
  match body with
  | Except.ok a => Except.ok a
  | Except.error e => handler e

/-- Exception-level model of `extractJson`: every `JSON.parse` call
sits inside a `try`, each `catch` drives the next stage. -/
def extractJsonE (text : String) : Except String String :=
  let jt := matchedStage text
  tryE
    (do let _ ← jsonParseE (String.mk jt); pure (String.mk jt))
    (fun _ =>
      tryE
        (do
          let fixed := repairChain jt
          let _ ← jsonParseE (String.mk fixed)
          pure (String.mk fixed))
        (fun _ =>
          tryE
            (do
              let conv := convertStage jt
              let _ ← jsonParseE (String.mk conv)
              pure (String.mk conv))
            (fun _ => pure text)))

/-- Exception-level model of `isCompleteJson`. -/
def isCompleteJsonE (jsonText : String) : Except String Bool :=
  tryE
    (do
      let v ← jsonParseE jsonText
      match v with
      | Json.obj m =>
        if (objLookup m "title").isSome || (objLookup m "description").isSome then
          pure (! m.any (fun kv => valIncomplete kv.2))
        else pure true
      | Json.arr _ => pure true
      | _ => pure false)
    (fun _ => pure false)

/-- Exception-level model of `completeTaskJson`. -/
def completeTaskJsonE (incompleteJson : String) : Except String String :=
  tryE
    (do
      let v ← jsonParseE incompleteJson
      pure (jsStringifyN (ctFuel incompleteJson) (Json.obj (completedFields v))))
    (fun _ => pure (jsStringifyN (ctFuel incompleteJson) cannedTask))

/-! ### Claim-side (specification-side) definitions

These restate predicates in the claims' own vocabulary, to be compared
with the code-side definitions above. -/

/-- Claim vocabulary: a parsed value that is not a non-null structured
object (a scalar or `null`). -/
def scalarOrNull (v : Json) : Prop :=
  v = Json.null ∨ (∃ b, v = Json.bool b) ∨ (∃ t, v = Json.num t) ∨
    (∃ s, v = Json.str s)

/-- Claim vocabulary: the parsed object is task-shaped, i.e. has a
`title` or `description` key present. -/
def taskShaped (m : List (String × Json)) : Prop :=
  (objLookup m "title").isSome = true ∨ (objLookup m "description").isSome = true

/-- Claim vocabulary: what the claims say a field of the merged task
object must look up to — the parsed object's own value when the key is
present, the fixed default otherwise. -/
def claimDefaultFor (k : String) : Option Json :=
  if k = "title" then some (Json.str "Generated Task")
  else if k = "description" then
    some (Json.str "Task generated from incomplete AI response")
  else if k = "details" then
    some (Json.str "Please review and update task details")
  else if k = "testStrategy" then
    some (Json.str "Manual verification required")
  else none

/-- Scanner hypothesis for the trailing-comma claim: some suffix of the
list starts a `/,(\s*[}\]])/` match. -/
def hasCommaClose : List Char → Bool
  | [] => false
  | c :: r => (mCommaClose (c :: r)).isSome || hasCommaClose r

/-! ### Claims -/

/-- Claim C1.  The claim states that `completeTaskJson` uses a field's
default exactly when the parsed field is absent, null or otherwise
falsy (so the four string fields are never absent, null or empty in
the returned JSON).  The code violates this: the spread
`{ ...defaults, ...parsed }` lets a present-but-falsy parsed value
override the computed default, contradicting the source's own comment
"preferring original values where they exist and are valid".  On the
failing input, the returned JSON keeps the empty `title`. -/
theorem completeTaskJson_keeps_empty_title :
    completeTaskJson "\x7b\"title\":\"\"\x7d" =
      jsStringifyN 30 (Json.obj
        [("title", Json.str ""),
         ("description", Json.str "Task generated from incomplete AI response"),
         ("details", Json.str "Please review and update task details"),
         ("testStrategy", Json.str "Manual verification required"),
         ("dependencies", Json.arr [])]) ∧
    jsonParse (completeTaskJson "\x7b\"title\":\"\"\x7d") =
      some (Json.obj
        [("title", Json.str ""),
         ("description", Json.str "Task generated from incomplete AI response"),
         ("details", Json.str "Please review and update task details"),
         ("testStrategy", Json.str "Manual verification required"),
         ("dependencies", Json.arr [])]) := by
  refine ⟨by decide, ?_⟩
  rfl

/-- Claim C2, counterexample.  The input `[{"a":1}]` is already valid
JSON, yet `extractJson` does not return it merely trimmed: the greedy
object match extracts the inner `{"a":1}`. -/
theorem extractJson_changes_valid_array :
    (jsonParse "[\x7b\"a\":1\x7d]").isSome = true ∧
    jsTrim "[\x7b\"a\":1\x7d]" = "[\x7b\"a\":1\x7d]" ∧
    extractJson "[\x7b\"a\":1\x7d]" = "\x7b\"a\":1\x7d" ∧
    ("\x7b\"a\":1\x7d" : String) ≠ "[\x7b\"a\":1\x7d]" := by
  refine ⟨rfl, rfl, rfl, ?_⟩
  decide

/-- Claim C3, counterexample.  On the candidate `[[1,],]` the
structural repair pass removes only the first trailing comma, not all
of them: the result is `[[1],]`, not `[[1]]`. -/
theorem repairChain_removes_only_first_comma :
    repairChain ("[[1,],]".data) = "[[1],]".data ∧
    repairChain ("[[1,],]".data) ≠ "[[1]]".data ∧
    extractJson "[[1,],]" = "[[1,],]" := by
  refine ⟨rfl, ?_, rfl⟩
  decide

/-- Stepping lemma: when the matcher fails at the head, `replaceOnce`
keeps the head character and continues. -/
theorem replaceOnce_cons_none (m : List Char → Option (List Char × List Char))
    (f : Nat) (c : Char) (l : List Char) (h : m (c :: l) = none) :
    replaceOnce m (f + 1) (c :: l) = c :: replaceOnce m f l := by
  simp [replaceOnce, h]

/-- Claim C3, amended.  The repair pass's trailing-comma substitution
removes exactly the leftmost comma that is followed by optional
whitespace and a closing `}` or `]` (the substitution is applied once,
not globally): on a decomposition `a ++ "," ++ w ++ br ++ rest` where
no match starts inside `a`, the comma alone is dropped. -/
theorem replaceOnce_commaClose_leftmost (a w rest : List Char) (br : Char)
    (h1 : ∀ i < a.length, mCommaClose ((a ++ ',' :: (w ++ br :: rest)).drop i) = none)
    (h2 : ∀ c ∈ w, isJsWs c = true)
    (h3 : br = rbrace ∨ br = rbrack) :
    replaceOnce mCommaClose ((a ++ ',' :: (w ++ br :: rest)).length + 1)
        (a ++ ',' :: (w ++ br :: rest)) =
      a ++ (w ++ br :: rest) := by
  induction a with
  | nil =>
    have hm : mCommaClose (',' :: (w ++ br :: rest)) = some (w ++ [br], rest) := by
      simp only [mCommaClose, if_pos rfl]
      have htw : (w ++ br :: rest).takeWhile isJsWs = w := by
        rw [List.takeWhile_append_of_pos]
        · have hbr : isJsWs br = false := by
            rcases h3 with rfl | rfl <;> rfl
          simp [List.takeWhile_cons, hbr]
        · exact fun c hc => h2 c hc
      rw [htw]
      have hdw : (w ++ br :: rest).drop w.length = br :: rest := by
        simp [List.drop_append_of_le_length]
      rw [hdw]
      simp [h3]
    simp only [List.nil_append, List.length_cons, replaceOnce, hm]
    simp
  | cons c a ih =>
    have h0 : mCommaClose (c :: (a ++ ',' :: (w ++ br :: rest))) = none := by
      have := h1 0 (by simp)
      simpa using this
    show replaceOnce mCommaClose ((c :: (a ++ ',' :: (w ++ br :: rest))).length + 1)
        (c :: (a ++ ',' :: (w ++ br :: rest))) = c :: (a ++ (w ++ br :: rest))
    rw [List.length_cons, replaceOnce_cons_none _ _ _ _ h0, ih]
    intro i hi
    have := h1 (i + 1) (by simpa using Nat.succ_lt_succ hi)
    simpa using this

/-- Claim C3, amended, witness: on `[[1,],]` the leftmost trailing
comma (after `[[1`) is the one removed. -/
theorem replaceOnce_commaClose_leftmost_witness :
    replaceOnce mCommaClose (("[[1".data ++ ',' :: ([] ++ ']' :: ",]".data)).length + 1)
        ("[[1".data ++ ',' :: ([] ++ ']' :: ",]".data)) =
      "[[1".data ++ ([] ++ ']' :: ",]".data) := by
  apply replaceOnce_commaClose_leftmost "[[1".data [] ",]".data ']'
  · decide
  · intro c hc
    cases hc
  · right
    rfl

/-- Claim C6, counterexample.  `extractJson "5 ;"` returns `"5 "`,
which strict-parses as valid JSON, but a second application trims the
trailing space: `extractJson "5 " = "5" ≠ "5 "`, so the idempotence
claim fails. -/
theorem extractJson_not_idempotent :
    extractJson "5 ;" = "5 " ∧
    (jsonParse "5 ").isSome = true ∧
    extractJson (extractJson "5 ;") = "5" ∧
    ("5" : String) ≠ "5 " := by
  refine ⟨rfl, rfl, rfl, ?_⟩
  decide

/-- Claim C7.  On the truncated input `{"title":"x","dependencies":`
the structural repair pass completes the dangling `"dependencies":` with an
empty array and appends the missing closing brace, and the result
parses to the same value as `{"title":"x","dependencies":[]}`. -/
theorem extractJson_truncated_dependencies :
    extractJson "\x7b\"title\":\"x\",\"dependencies\":" =
      "\x7b\"title\":\"x\",\"dependencies\": []\x7d" ∧
    jsonParse "\x7b\"title\":\"x\",\"dependencies\": []\x7d" =
      jsonParse "\x7b\"title\":\"x\",\"dependencies\":[]\x7d" ∧
    (jsonParse "\x7b\"title\":\"x\",\"dependencies\": []\x7d").isSome = true := by
  exact ⟨rfl, rfl, rfl⟩

/-- Claim C8.  When the strict parse fails at every stage — on the
matched candidate, on the structurally repaired candidate, and on the
literal-converted candidate — `extractJson` returns the original input
verbatim. -/
theorem extractJson_all_fail_returns_input (text : String)
    (h1 : jsonParse (String.mk (matchedStage text)) = none)
    (h2 : jsonParse (String.mk (repairChain (matchedStage text))) = none)
    (h3 : jsonParse (String.mk (convertStage (matchedStage text))) = none) :
    extractJson text = text := by
  unfold extractJson
  simp only [h1, h2, h3]

/-- Claim C8, witness: all three stages fail on the garbage input from
the spec, and the input is returned verbatim. -/
theorem extractJson_all_fail_witness :
    jsonParse (String.mk (matchedStage "not json at all \x7b\x7b\x7b")) = none ∧
    jsonParse (String.mk (repairChain (matchedStage "not json at all \x7b\x7b\x7b"))) = none ∧
    jsonParse (String.mk (convertStage (matchedStage "not json at all \x7b\x7b\x7b"))) = none ∧
    extractJson "not json at all \x7b\x7b\x7b" = "not json at all \x7b\x7b\x7b" :=
  ⟨rfl, rfl, rfl,
    extractJson_all_fail_returns_input "not json at all \x7b\x7b\x7b" rfl rfl rfl⟩

/-- Characterization of `valIncomplete` in the claim's vocabulary. -/
theorem valIncomplete_eq_true_iff (v : Json) :
    valIncomplete v = true ↔
      (v = Json.null ∨ ∃ t, v = Json.str t ∧ jsTrim t = "") := by
  cases v <;> simp [valIncomplete]

/-- Claim C4.  None of the three functions lets an exception propagate
to its caller: in the exception-level embedding each returns `ok` of
the corresponding total function's value (the original text, a
boolean, or a JSON string with the canned value on parse failure), for
every input string. -/
theorem no_propagating_errors (s : String) :
    extractJsonE s = Except.ok (extractJson s) ∧
    isCompleteJsonE s = Except.ok (isCompleteJson s) ∧
    completeTaskJsonE s = Except.ok (completeTaskJson s) ∧
    (jsonParse s = none →
      completeTaskJson s = jsStringifyN (ctFuel s) cannedTask) := by
  refine ⟨?_, ?_, ?_, ?_⟩
  · unfold extractJsonE extractJson jsonParseE
    cases h1 : jsonParse (String.mk (matchedStage s)) <;>
      cases h2 : jsonParse (String.mk (repairChain (matchedStage s))) <;>
        cases h3 : jsonParse (String.mk (convertStage (matchedStage s))) <;>
          simp only [h1, h2, h3, tryE, bind, Except.bind, pure, Except.pure]
  · unfold isCompleteJsonE isCompleteJson jsonParseE
    cases h : jsonParse s with
    | none => simp only [h, tryE, bind, Except.bind, pure, Except.pure]
    | some v =>
      cases v with
      | obj m =>
        cases hc : ((objLookup m "title").isSome || (objLookup m "description").isSome) <;>
          simp [h, hc, tryE, bind, Except.bind, pure, Except.pure]
      | _ => simp only [h, tryE, bind, Except.bind, pure, Except.pure]
  · unfold completeTaskJsonE completeTaskJson jsonParseE
    cases h : jsonParse s <;>
      simp only [h, tryE, bind, Except.bind, pure, Except.pure]
  · intro h
    unfold completeTaskJson
    rw [h]

/-- Claim C4, witness: at the empty string (whose strict parse fails
everywhere) all three functions return their fallback `ok` values. -/
theorem no_propagating_errors_witness :
    extractJsonE "" = Except.ok (extractJson "") ∧
    isCompleteJsonE "" = Except.ok (isCompleteJson "") ∧
    completeTaskJsonE "" = Except.ok (completeTaskJson "") ∧
    (jsonParse "" = none →
      completeTaskJson "" = jsStringifyN (ctFuel "") cannedTask) :=
  no_propagating_errors ""

/-- Claim C5.  `isCompleteJson` returns `false` when the strict parse
fails or yields a scalar or `null`; on a task-shaped object (a `title`
or `description` key present, even falsy) it returns `false` exactly
when some own-field value is `null` or a string that trims to empty;
on a non-task-shaped object or an array it returns `true` with no
field-level check. -/
theorem isCompleteJson_spec (s : String) :
    (jsonParse s = none → isCompleteJson s = false) ∧
    (∀ v, jsonParse s = some v → scalarOrNull v → isCompleteJson s = false) ∧
    (∀ xs, jsonParse s = some (Json.arr xs) → isCompleteJson s = true) ∧
    (∀ m, jsonParse s = some (Json.obj m) → taskShaped m →
      (isCompleteJson s = false ↔
        ∃ kv ∈ m, kv.2 = Json.null ∨ ∃ t, kv.2 = Json.str t ∧ jsTrim t = "")) ∧
    (∀ m, jsonParse s = some (Json.obj m) → ¬ taskShaped m →
      isCompleteJson s = true) := by
  refine ⟨?_, ?_, ?_, ?_, ?_⟩
  · intro h
    simp [isCompleteJson, h]
  · intro v h hscal
    rcases hscal with rfl | ⟨b, rfl⟩ | ⟨t, rfl⟩ | ⟨t, rfl⟩ <;>
      simp [isCompleteJson, h]
  · intro xs h
    simp [isCompleteJson, h]
  · intro m h htask
    have hsh : ((objLookup m "title").isSome || (objLookup m "description").isSome) = true := by
      rcases htask with h' | h' <;> simp [h']
    have hval : isCompleteJson s = ! m.any (fun kv => valIncomplete kv.2) := by
      simp [isCompleteJson, h, hsh]
    rw [hval]
    have hnot : ∀ b : Bool, ((!b) = false ↔ b = true) := by decide
    rw [hnot, List.any_eq_true]
    exact exists_congr fun kv =>
      and_congr_right fun _ => valIncomplete_eq_true_iff kv.2
  · intro m h htask
    have h1 : (objLookup m "title").isSome = false := by
      cases ht : objLookup m "title" with
      | none => rfl
      | some v => exact absurd (Or.inl (by simp [ht])) htask
    have h2 : (objLookup m "description").isSome = false := by
      cases hd : objLookup m "description" with
      | none => rfl
      | some v => exact absurd (Or.inr (by simp [hd])) htask
    simp [isCompleteJson, h, h1, h2]

/-- Claim C5, witness: the spec's two examples — an empty
`description` on a task-shaped object is incomplete, a non-task-shaped
object is complete. -/
theorem isCompleteJson_spec_witness :
    isCompleteJson "\x7b\"title\":\"x\",\"description\":\"\"\x7d" = false ∧
    isCompleteJson "\x7b\"a\":1\x7d" = true := by
  constructor
  · refine ((isCompleteJson_spec "\x7b\"title\":\"x\",\"description\":\"\"\x7d").2.2.2.1
      [("title", Json.str "x"), ("description", Json.str "")] rfl
      (Or.inl rfl)).mpr ?_
    exact ⟨("description", Json.str ""), by simp, Or.inr ⟨"", rfl, rfl⟩⟩
  · refine (isCompleteJson_spec "\x7b\"a\":1\x7d").2.2.2.2 [("a", Json.num "1")] rfl ?_
    intro h
    rcases h with h | h <;> simp [objLookup] at h

/-! Association-list lemmas for the merge analysis. -/

/-- Looking up the inserted key finds the inserted value. -/
theorem objLookup_objInsert_self (m : List (String × Json)) (k : String) (v : Json) :
    objLookup (objInsert m k v) k = some v := by
  induction m with
  | nil => simp [objInsert, objLookup]
  | cons kv rest ih =>
    obtain ⟨k', v'⟩ := kv
    by_cases h : k' = k
    · subst h
      simp [objInsert, objLookup]
    · simp [objInsert, objLookup, h, ih]

/-- Looking up another key is unaffected by an insert. -/
theorem objLookup_objInsert_other (m : List (String × Json)) (k k' : String)
    (v : Json) (h : k' ≠ k) :
    objLookup (objInsert m k v) k' = objLookup m k' := by
  induction m with
  | nil =>
    have hne : ¬ (k = k') := fun hh => h hh.symm
    simp [objInsert, objLookup, hne]
  | cons kv rest ih =>
    obtain ⟨k0, v0⟩ := kv
    by_cases h0 : k0 = k
    · subst h0
      have hne : ¬ (k0 = k') := fun hh => h hh.symm
      simp [objInsert, objLookup, hne]
    · simp only [objInsert, if_neg h0]
      by_cases h1 : k0 = k'
      · simp [objLookup, h1]
      · simp [objLookup, h1, ih]

/-- A key not among the field names looks up to nothing. -/
theorem objLookup_eq_none_of_not_mem (m : List (String × Json)) (k : String)
    (h : k ∉ m.map Prod.fst) :
    objLookup m k = none := by
  induction m with
  | nil => rfl
  | cons kv rest ih =>
    obtain ⟨k0, v0⟩ := kv
    simp only [List.map_cons, List.mem_cons] at h
    push_neg at h
    have hne : ¬ (k0 = k) := fun hh => h.1 hh.symm
    simp [objLookup, hne, ih h.2]

/-- The field names after an insert: unchanged when the key was
present, the key appended otherwise. -/
theorem objInsert_keys (m : List (String × Json)) (k : String) (v : Json) :
    (objInsert m k v).map Prod.fst =
      if k ∈ m.map Prod.fst then m.map Prod.fst
      else m.map Prod.fst ++ [k] := by
  induction m with
  | nil => simp [objInsert]
  | cons kv rest ih =>
    obtain ⟨k0, v0⟩ := kv
    by_cases h0 : k0 = k
    · subst h0
      simp [objInsert]
    · have hk : ¬ (k = k0) := fun hh => h0 hh.symm
      simp only [objInsert, if_neg h0, List.map_cons, ih]
      by_cases hmem : k ∈ rest.map Prod.fst
      · simp [hmem, hk]
      · simp [hmem, hk]

/-- Inserting preserves distinctness of the field names. -/
theorem objInsert_nodup (m : List (String × Json)) (k : String) (v : Json)
    (h : (m.map Prod.fst).Nodup) :
    ((objInsert m k v).map Prod.fst).Nodup := by
  rw [objInsert_keys]
  by_cases hmem : k ∈ m.map Prod.fst
  · simpa [hmem] using h
  · simp only [hmem, if_false]
    rw [List.nodup_append]
    refine ⟨h, List.nodup_singleton _, ?_⟩
    intro a ha hak
    rw [List.mem_singleton] at hak
    exact hmem (hak ▸ ha)

/-- Accumulator invariant of the parsing modes: members accumulators
have distinct field names. -/
def accOk : PMode → Prop
  | PMode.value => True
  | PMode.members acc => (acc.map Prod.fst).Nodup
  | PMode.elements _ => True

/-- Result invariant: parsed top-level objects and field lists have
distinct field names. -/
def outOk : POut → Prop
  | POut.val (Json.obj m) => (m.map Prod.fst).Nodup
  | POut.val _ => True
  | POut.fields m => (m.map Prod.fst).Nodup
  | POut.items _ => True

/-- One dispatch step maintains the distinct-field-names invariant
when the recursive call does. -/
theorem parseStep_outOk (rec : PMode → List Char → Option (POut × List Char))
    (hrec : ∀ mode l out rest, accOk mode → rec mode l = some (out, rest) →
      outOk out) :
    ∀ mode l out rest, accOk mode → parseStep rec mode l = some (out, rest) →
      outOk out := by
  intro mode l out rest hacc h
  cases mode with
  | value =>
    simp only [parseStep] at h
    repeat' split at h
    all_goals first
      | exact Option.noConfusion h
      | (replace h := (Prod.ext_iff.mp (Option.some.inj h)).1
         subst h
         first
           | (simp [outOk]; done)
           | (rename_i heq
              simpa [outOk] using hrec _ _ _ _ (by simp [accOk]) heq))
  | members acc =>
    simp only [parseStep] at h
    repeat' split at h
    all_goals first
      | exact Option.noConfusion h
      | (refine hrec _ _ _ _ ?_ h
         exact objInsert_nodup _ _ _ hacc)
      | (replace h := (Prod.ext_iff.mp (Option.some.inj h)).1
         subst h
         first
           | (simp [outOk]; done)
           | (simp only [outOk]; exact objInsert_nodup _ _ _ hacc))
  | elements acc =>
    simp only [parseStep] at h
    repeat' split at h
    all_goals first
      | exact Option.noConfusion h
      | (refine hrec _ _ _ _ ?_ h
         simp [accOk])
      | (replace h := (Prod.ext_iff.mp (Option.some.inj h)).1
         subst h
         simp [outOk])

/-- The parser core maintains the distinct-field-names invariant. -/
theorem parseCore_outOk (f : Nat) : ∀ (mode : PMode) (l : List Char)
    (out : POut) (rest : List Char), accOk mode →
    parseCore f mode l = some (out, rest) → outOk out := by
  induction f with
  | zero =>
    intro mode l out rest _ h
    exact absurd h (by simp [parseCore])
  | succ f ih =>
    intro mode l out rest hacc h
    exact parseStep_outOk (parseCore f) ih mode l out rest hacc h

/-- A successfully parsed top-level object has distinct field names. -/
theorem jsonParse_obj_nodup (s : String) (m : List (String × Json))
    (h : jsonParse s = some (Json.obj m)) : (m.map Prod.fst).Nodup := by
  unfold jsonParse at h
  split at h
  · rename_i out rest v heq
    split at h
    · injection h with h1
      subst h1
      have := parseCore_outOk _ PMode.value _ _ _ trivial heq
      simpa [outOk] using this
    · exact absurd h (by simp)
  · exact absurd h (by simp)

/-- Looking up a key after spreading `m` over `base` finds `m`'s value
when the key is present in `m` (its names being distinct), and `base`'s
value otherwise. -/
theorem objLookup_spreadMerge (m : List (String × Json))
    (base : List (String × Json)) (k : String)
    (hnd : (m.map Prod.fst).Nodup) :
    objLookup (spreadMerge base m) k =
      (match objLookup m k with
       | some v => some v
       | none => objLookup base k) := by
  unfold spreadMerge
  induction m generalizing base with
  | nil => simp [objLookup]
  | cons kv rest ih =>
    obtain ⟨k0, v0⟩ := kv
    simp only [List.map_cons, List.nodup_cons] at hnd
    simp only [List.foldl_cons]
    rw [ih _ hnd.2]
    by_cases hk : k0 = k
    · subst hk
      have hrest : objLookup rest k0 = none :=
        objLookup_eq_none_of_not_mem rest k0 hnd.1
      simp [objLookup, hrest, objLookup_objInsert_self]
    · have hne : ¬ (k0 = k) := hk
      cases hr : objLookup rest k with
      | some v => simp [objLookup, hne, hr]
      | none =>
        simp [objLookup, hne, hr,
          objLookup_objInsert_other base k0 k v0 (fun hh => hk hh.symm)]

/-- Field lookup in the completed task object, for an input object
with distinct field names: every key other than `dependencies` keeps
the parsed value when present and gets the fixed default (or nothing)
when absent; `dependencies` keeps the parsed value exactly when it is
an array and becomes the empty array otherwise. -/
theorem completedFields_spec (m : List (String × Json))
    (hnd : (m.map Prod.fst).Nodup) :
    (∀ k, k ≠ "dependencies" →
      objLookup (completedFields (Json.obj m)) k =
        (match objLookup m k with
         | some v => some v
         | none => claimDefaultFor k)) ∧
    objLookup (completedFields (Json.obj m)) "dependencies" =
      some (match objLookup m "dependencies" with
            | some (Json.arr a) => Json.arr a
            | _ => Json.arr []) := by
  have hbase : ∀ k, objLookup (spreadMerge (defaultsFor m) m) k =
      (match objLookup m k with
       | some v => some v
       | none => objLookup (defaultsFor m) k) :=
    fun k => objLookup_spreadMerge m (defaultsFor m) k hnd
  have hdefault : ∀ k, k ≠ "dependencies" → objLookup m k = none →
      objLookup (defaultsFor m) k = claimDefaultFor k := by
    intro k hk hmk
    by_cases h1 : k = "title"
    · subst h1
      simp [defaultsFor, objLookup, claimDefaultFor, pickOr, hmk]
    · by_cases h2 : k = "description"
      · subst h2
        simp [defaultsFor, objLookup, claimDefaultFor, pickOr, hmk]
      · by_cases h3 : k = "details"
        · subst h3
          simp [defaultsFor, objLookup, claimDefaultFor, pickOr, hmk]
        · by_cases h4 : k = "testStrategy"
          · subst h4
            simp [defaultsFor, objLookup, claimDefaultFor, pickOr, hmk]
          · have e1 : ¬ ("title" = k) := fun hh => h1 hh.symm
            have e2 : ¬ ("description" = k) := fun hh => h2 hh.symm
            have e3 : ¬ ("details" = k) := fun hh => h3 hh.symm
            have e4 : ¬ ("testStrategy" = k) := fun hh => h4 hh.symm
            have e5 : ¬ ("dependencies" = k) := fun hh => hk hh.symm
            simp [defaultsFor, objLookup, claimDefaultFor, e1, e2, e3, e4, e5,
              h1, h2, h3, h4, hk]
  have hspread : objLookup (spreadMerge (defaultsFor m) m) "dependencies" =
      (match objLookup m "dependencies" with
       | some v => some v
       | none => some (Json.arr [])) := by
    rw [hbase]
    cases hd : objLookup m "dependencies" with
    | none => simp [defaultsFor, objLookup, hd]
    | some v => rfl
  have hmerge : ∀ k, k ≠ "dependencies" →
      objLookup (spreadMerge (defaultsFor m) m) k =
        (match objLookup m k with
         | some v => some v
         | none => claimDefaultFor k) := by
    intro k hk
    rw [hbase]
    cases hmk : objLookup m k with
    | some v => rfl
    | none => simp [hdefault k hk hmk]
  constructor
  · intro k hk
    show objLookup
      (match objLookup (spreadMerge (defaultsFor m) m) "dependencies" with
       | some (Json.arr _) => spreadMerge (defaultsFor m) m
       | _ => objInsert (spreadMerge (defaultsFor m) m) "dependencies"
           (Json.arr [])) k = _
    cases hd : objLookup m "dependencies" with
    | none =>
      rw [hd] at hspread
      rw [hspread]
      exact hmerge k hk
    | some v =>
      rw [hd] at hspread
      rw [hspread]
      cases v with
      | arr a => exact hmerge k hk
      | null => rw [objLookup_objInsert_other _ _ _ _ hk]; exact hmerge k hk
      | bool b => rw [objLookup_objInsert_other _ _ _ _ hk]; exact hmerge k hk
      | num t => rw [objLookup_objInsert_other _ _ _ _ hk]; exact hmerge k hk
      | str t => rw [objLookup_objInsert_other _ _ _ _ hk]; exact hmerge k hk
      | obj o => rw [objLookup_objInsert_other _ _ _ _ hk]; exact hmerge k hk
  · show objLookup
      (match objLookup (spreadMerge (defaultsFor m) m) "dependencies" with
       | some (Json.arr _) => spreadMerge (defaultsFor m) m
       | _ => objInsert (spreadMerge (defaultsFor m) m) "dependencies"
           (Json.arr [])) "dependencies" = _
    cases hd : objLookup m "dependencies" with
    | none =>
      rw [hd] at hspread
      rw [hspread, hspread]
    | some v =>
      rw [hd] at hspread
      rw [hspread]
      cases v with
      | arr a => rw [hspread]
      | null => rw [objLookup_objInsert_self]
      | bool b => rw [objLookup_objInsert_self]
      | num t => rw [objLookup_objInsert_self]
      | str t => rw [objLookup_objInsert_self]
      | obj o => rw [objLookup_objInsert_self]

/-- Claim C10.  On any input that strict-parses to an object,
`completeTaskJson` returns the serialization of a task object that
preserves every parsed key other than `dependencies` with exactly its
parsed value (including unrecognized extra keys), adds a default only
for the absent ones among the five known fields, and rewrites only
`dependencies` (to the empty array when the parsed value is not an
array). -/
theorem completeTaskJson_frame (s : String) (m : List (String × Json))
    (h : jsonParse s = some (Json.obj m)) :
    completeTaskJson s =
      jsStringifyN (ctFuel s) (Json.obj (completedFields (Json.obj m))) ∧
    (∀ k, k ≠ "dependencies" →
      objLookup (completedFields (Json.obj m)) k =
        (match objLookup m k with
         | some v => some v
         | none => claimDefaultFor k)) ∧
    objLookup (completedFields (Json.obj m)) "dependencies" =
      some (match objLookup m "dependencies" with
            | some (Json.arr a) => Json.arr a
            | _ => Json.arr []) := by
  have hnd := jsonParse_obj_nodup s m h
  refine ⟨?_, (completedFields_spec m hnd).1, (completedFields_spec m hnd).2⟩
  unfold completeTaskJson
  rw [h]

/-- Claim C10, witness: a concrete object with an extra unrecognized
key `priority` and a non-array `dependencies`: `priority` and `title`
are preserved, the absent `description` gets its default, and
`dependencies` is rewritten to the empty array. -/
theorem completeTaskJson_frame_witness :
    objLookup (completedFields (Json.obj
        [("title", Json.str "x"), ("priority", Json.num "5"),
         ("dependencies", Json.num "3")])) "priority" = some (Json.num "5") ∧
    objLookup (completedFields (Json.obj
        [("title", Json.str "x"), ("priority", Json.num "5"),
         ("dependencies", Json.num "3")])) "title" = some (Json.str "x") ∧
    objLookup (completedFields (Json.obj
        [("title", Json.str "x"), ("priority", Json.num "5"),
         ("dependencies", Json.num "3")])) "description" =
      some (Json.str "Task generated from incomplete AI response") ∧
    objLookup (completedFields (Json.obj
        [("title", Json.str "x"), ("priority", Json.num "5"),
         ("dependencies", Json.num "3")])) "dependencies" =
      some (Json.arr []) := by
  have h := completeTaskJson_frame
    "\x7b\"title\":\"x\",\"priority\":5,\"dependencies\":3\x7d"
    [("title", Json.str "x"), ("priority", Json.num "5"),
     ("dependencies", Json.num "3")] rfl
  refine ⟨?_, ?_, ?_, ?_⟩
  · rw [h.2.1 "priority" (by decide)]
    rfl
  · rw [h.2.1 "title" (by decide)]
    rfl
  · rw [h.2.1 "description" (by decide)]
    rfl
  · rw [h.2.2]
    rfl

/-! ### Token-chunk structure of parseable text

A string accepted by the strict parser decomposes into whitespace,
punctuation, number/literal characters, and complete string literals
whose raw bodies contain no newline.  This is the structural fact
behind the fence-stripping stages being no-ops on valid JSON. -/

/-- Characters the parser can consume outside of string literals.
The backtick is not among them. -/
def simpleChar (c : Char) : Bool :=
  isJsonWs c || c = lbrace || c = rbrace || c = lbrack || c = rbrack ||
  c = ':' || c = ',' || c.isDigit || c = '-' || c = '+' || c = '.' || c.isAlpha

/-- Chunk decomposition: a sequence of simple characters and complete
string literals whose raw bodies contain neither LF nor CR (the parser
rejects raw control characters inside string literals; U+2028/U+2029
may occur in bodies and are therefore not excluded here). -/
inductive Chunks : List Char → Prop where
  | nil : Chunks []
  | simple {c : Char} {l : List Char} :
      simpleChar c = true → Chunks l → Chunks (c :: l)
  | str {b l : List Char} :
      (∀ c ∈ b, isNlCr c = false) → Chunks l →
      Chunks (dquote :: b ++ dquote :: l)

/-- Chunk decompositions concatenate. -/
theorem Chunks.append {a b : List Char} (ha : Chunks a) (hb : Chunks b) :
    Chunks (a ++ b) := by
  induction ha with
  | nil => simpa using hb
  | simple hc _ ih => exact Chunks.simple hc ih
  | str hbody _ ih =>
    have h2 := Chunks.str hbody ih
    simpa [List.cons_append, List.append_assoc] using h2

/-- A run of simple characters prefixed to a chunk decomposition. -/
theorem Chunks.simpleRun {w l : List Char}
    (hw : ∀ c ∈ w, simpleChar c = true) (hl : Chunks l) : Chunks (w ++ l) := by
  induction w with
  | nil => simpa using hl
  | cons c w ih =>
    exact Chunks.simple (hw c (by simp))
      (ih fun d hd => hw d (by simp [hd]))

/-- The head of a chunk decomposition is never a backtick. -/
theorem Chunks.head_ne_btick {l : List Char} (h : Chunks l) :
    l.head? ≠ some btick := by
  cases h with
  | nil => simp
  | simple hc _ =>
    simp only [List.head?_cons]
    intro hh
    injection hh with hh2
    rw [hh2] at hc
    exact absurd hc (by decide)
  | str _ _ =>
    simp only [List.cons_append, List.head?_cons, Option.some.injEq]
    decide

/-- Splitting off an LF or CR from a chunk decomposition leaves a
chunk decomposition: these terminators only occur between chunks. -/
theorem Chunks.suffix_after_term {l : List Char} (h : Chunks l) :
    ∀ x t y, isNlCr t = true → l = x ++ t :: y → Chunks y := by
  induction h with
  | nil =>
    intro x t y _ hxy
    exact absurd hxy (by simp)
  | simple hc hl ih =>
    intro x t y ht hxy
    cases x with
    | nil =>
      simp only [List.nil_append, List.cons.injEq] at hxy
      rw [← hxy.2]
      exact hl
    | cons x0 x' =>
      simp only [List.cons_append, List.cons.injEq] at hxy
      exact ih x' t y ht hxy.2
  | str hbody hl ih =>
    rename_i b l'
    intro x t y ht hxy
    cases x with
    | nil =>
      simp only [List.cons_append, List.nil_append, List.cons.injEq] at hxy
      rw [← hxy.1] at ht
      exact absurd ht (by decide)
    | cons x0 x' =>
      simp only [List.cons_append, List.cons.injEq] at hxy
      -- the terminator lies beyond the string literal body
      have : ∀ (b : List Char) (x' : List Char), (∀ c ∈ b, isNlCr c = false) →
          b ++ dquote :: l' = x' ++ t :: y → ∃ x2, l' = x2 ++ t :: y := by
        intro b
        induction b with
        | nil =>
          intro x' _ heq
          cases x' with
          | nil =>
            simp only [List.nil_append, List.cons.injEq] at heq
            rw [← heq.1] at ht
            exact absurd ht (by decide)
          | cons z x2 =>
            simp only [List.nil_append, List.cons_append, List.cons.injEq] at heq
            exact ⟨x2, heq.2⟩
        | cons c b2 ihb =>
          intro x' hnf heq
          cases x' with
          | nil =>
            simp only [List.cons_append, List.nil_append, List.cons.injEq] at heq
            have hc0 := hnf c (by simp)
            rw [heq.1] at hc0
            rw [hc0] at ht
            exact absurd ht (by simp)
          | cons z x2 =>
            simp only [List.cons_append, List.cons.injEq] at heq
            exact ihb x2 (fun d hd => hnf d (by simp [hd])) heq.2
      obtain ⟨x2, hx2⟩ := this b x' hbody hxy.2
      exact ih x2 t y ht hx2

/-- After any backtick in a chunk decomposition, the whitespace run of
the remaining text contains no LF or CR and stops before the end of
the text (at the closing quote of the string literal the backtick lies
in). -/
theorem Chunks.after_btick {l : List Char} (h : Chunks l) :
    ∀ x z, l = x ++ btick :: z →
      (∀ c ∈ z.takeWhile isJsWs, isNlCr c = false) ∧
      z.dropWhile isJsWs ≠ [] := by
  induction h with
  | nil =>
    intro x z hxz
    exact absurd hxz (by simp)
  | simple hc hl ih =>
    intro x z hxz
    cases x with
    | nil =>
      simp only [List.nil_append, List.cons.injEq] at hxz
      rw [hxz.1] at hc
      exact absurd hc (by decide)
    | cons x0 x' =>
      simp only [List.cons_append, List.cons.injEq] at hxz
      exact ih x' z hxz.2
  | str hbody hl ih =>
    rename_i b l'
    intro x z hxz
    cases x with
    | nil =>
      simp only [List.cons_append, List.nil_append, List.cons.injEq] at hxz
      exact absurd hxz.1 (by decide)
    | cons x0 x' =>
      simp only [List.cons_append, List.cons.injEq] at hxz
      -- the backtick is either inside the body or beyond the literal
      have key : ∀ (b : List Char) (x' : List Char),
          (∀ c ∈ b, isNlCr c = false) →
          b ++ dquote :: l' = x' ++ btick :: z →
          (∃ b2, z = b2 ++ dquote :: l' ∧ ∀ c ∈ b2, isNlCr c = false) ∨
          (∃ x2, l' = x2 ++ btick :: z) := by
        intro b
        induction b with
        | nil =>
          intro x' _ heq
          cases x' with
          | nil =>
            simp only [List.nil_append, List.cons.injEq] at heq
            exact absurd heq.1 (by decide)
          | cons z0 x2 =>
            simp only [List.nil_append, List.cons_append, List.cons.injEq] at heq
            exact Or.inr ⟨x2, heq.2⟩
        | cons c b2 ihb =>
          intro x' hnf heq
          cases x' with
          | nil =>
            simp only [List.cons_append, List.nil_append, List.cons.injEq] at heq
            exact Or.inl ⟨b2, heq.2.symm, fun d hd => hnf d (by simp [hd])⟩
          | cons z0 x2 =>
            simp only [List.cons_append, List.cons.injEq] at heq
            rcases ihb x2 (fun d hd => hnf d (by simp [hd])) heq.2 with hin | hout
            · exact Or.inl hin
            · exact Or.inr hout
      rcases key b x' hbody hxz.2 with ⟨b2, hz, hb2⟩ | ⟨x2, hx2⟩
      · subst hz
        constructor
        · intro c hmem
          rw [List.takeWhile_append] at hmem
          have htkq : List.takeWhile isJsWs (dquote :: l') = [] :=
            List.takeWhile_cons_of_neg (by decide)
          split at hmem
          · rw [htkq, List.append_nil] at hmem
            exact hb2 _ hmem
          · exact hb2 _ ((List.takeWhile_sublist _).subset hmem)
        · intro hnil
          rw [List.dropWhile_eq_nil_iff] at hnil
          have h2 := hnil dquote (by simp)
          exact absurd h2 (by decide)
      · exact ih x2 z hx2

/-! ### Identity conditions for the pipeline stages -/

/-- A prefix determines the head. -/
theorem isPre_head {tag l : List Char} {c : Char} (h : isPre tag l = true)
    (hc : tag.head? = some c) : l.head? = some c := by
  cases tag with
  | nil => simp at hc
  | cons t ts =>
    cases l with
    | nil => simp [isPre] at h
    | cons a as =>
      simp only [isPre, Bool.and_eq_true, decide_eq_true_eq] at h
      simp only [List.head?_cons] at hc ⊢
      rw [← h.1]
      exact hc

/-- The fence-opener scanner is the identity when no line starts with
a backtick. -/
theorem stripFenceOpen_id (tag : List Char) (htag : tag.head? = some btick) :
    ∀ (f : Nat) (atLS : Bool) (l : List Char),
      (atLS = true → l.head? ≠ some btick) →
      (∀ x t y, isLineTerm t = true → l = x ++ t :: y →
        y.head? ≠ some btick) →
      stripFenceOpen tag f atLS l = l := by
  intro f
  induction f with
  | zero => intro atLS l _ _; rfl
  | succ f ih =>
    intro atLS l hhead hnl
    have hcond : (atLS && isPre tag l) = false := by
      cases hA : atLS with
      | false => rfl
      | true =>
        cases hP : isPre tag l with
        | false => simp
        | true => exact absurd (isPre_head hP htag) (hhead hA)
    simp only [stripFenceOpen, hcond, Bool.false_eq_true, if_false]
    cases l with
    | nil => rfl
    | cons c r =>
      have hr : stripFenceOpen tag f (isLineTerm c) r = r := by
        apply ih
        · intro hdec
          exact hnl [] c r hdec (by simp)
        · intro x t y ht hxy
          exact hnl (c :: x) t y ht (by simp [hxy])
      show c :: stripFenceOpen tag f (isLineTerm c) r = c :: r
      rw [hr]

/-- Dropping while a predicate holds is dropping the length of the
taken prefix. -/
theorem drop_length_takeWhile (p : Char → Bool) (l : List Char) :
    l.drop (l.takeWhile p).length = l.dropWhile p := by
  conv_lhs => rw [← List.takeWhile_append_dropWhile p l]
  rw [List.drop_append_of_le_length (by simp)]
  simp

/-- A last-index query fails on lists not containing the character. -/
theorem lastIdxOf_eq_none {c : Char} {l : List Char} (h : c ∉ l) :
    lastIdxOf c l = none := by
  unfold lastIdxOf
  have : l.reverse.findIdx? (· = c) = none := by
    rw [List.findIdx?_eq_none_iff]
    intro x hx
    exact decide_eq_false (fun hxc => h (hxc ▸ List.mem_reverse.mp hx))
  rw [this]

/-- A predicate last-index query fails when no character satisfies the
predicate. -/
theorem lastIdxOfP_eq_none {p : Char → Bool} {l : List Char}
    (h : ∀ c ∈ l, p c = false) : lastIdxOfP p l = none := by
  unfold lastIdxOfP
  have : l.reverse.findIdx? p = none := by
    rw [List.findIdx?_eq_none_iff]
    intro x hx
    exact h x (List.mem_reverse.mp hx)
  rw [this]

/-- The fence-closer scanner is the identity when after every backtick
the whitespace run contains no line terminator and stops before the
end. -/
theorem stripFenceClose_id :
    ∀ (f : Nat) (l : List Char),
      (∀ x z, l = x ++ btick :: z →
        (∀ c ∈ z.takeWhile isJsWs, isLineTerm c = false) ∧
        z.dropWhile isJsWs ≠ []) →
      stripFenceClose f l = l := by
  intro f
  induction f with
  | zero => intro l _; rfl
  | succ f ih =>
    intro l h
    rw [stripFenceClose.eq_def]
    cases hP : isPre fenceTag l with
    | false =>
      simp only [hP, Bool.false_eq_true, if_false]
      cases l with
      | nil => rfl
      | cons c r =>
        show c :: stripFenceClose f r = c :: r
        rw [ih r]
        intro x z hxz
        exact h (c :: x) z (by simp [hxz])
    | true =>
      -- the three backticks exist, so the side conditions forbid a match
      obtain ⟨y, hy⟩ : ∃ y, l = btick :: btick :: btick :: y := by
        cases l with
        | nil => simp [isPre] at hP
        | cons a1 l1 =>
          cases l1 with
          | nil => simp [isPre, fenceTag] at hP
          | cons a2 l2 =>
            cases l2 with
            | nil => simp [isPre, fenceTag] at hP
            | cons a3 l3 =>
              simp only [isPre, fenceTag, Bool.and_eq_true, decide_eq_true_eq] at hP
              exact ⟨l3, by rw [← hP.1, ← hP.2.1, ← hP.2.2.1]⟩
      have hz := h [btick, btick] y (by simp [hy])
      simp only [hP, if_true]
      have hdrop3 : l.drop 3 = y := by rw [hy]; rfl
      rw [hdrop3]
      have hne : (y.drop (y.takeWhile isJsWs).length = []) = False := by
        rw [drop_length_takeWhile]
        simp [hz.2]
      simp only [hne, if_false]
      rw [lastIdxOfP_eq_none hz.1]
      cases hl : l with
      | nil => simp [hl] at hy
      | cons c r =>
        show c :: stripFenceClose f r = c :: r
        rw [ih r]
        intro x z hxz
        exact h (c :: x) z (by simp [hl, hxz])

/-- Declaration stripping is the identity when the head differs from
the keyword's head. -/
theorem stripDecl_id {kw l : List Char} {k0 : Char} (hk : kw.head? = some k0)
    (hl : l.head? ≠ some k0) : stripDecl kw l = l := by
  have hP : isPre kw l = false := by
    cases hP : isPre kw l with
    | false => rfl
    | true => exact absurd (isPre_head hP hk) hl
  unfold stripDecl
  simp [hP]

/-- Semicolon stripping is the identity when the last character is
neither whitespace nor a semicolon. -/
theorem semiStrip_id {l : List Char} {c : Char} (hlast : l.getLast? = some c)
    (hws : isJsWs c = false) (hsemi : c ≠ ';') : semiStrip l = l := by
  have hu : dropTrailWs l = l := by
    unfold dropTrailWs
    cases hrev : l.reverse with
    | nil =>
      simp only [List.reverse_eq_nil_iff] at hrev
      simp [hrev]
    | cons a t =>
      have ha : a = c := by
        have := List.head?_reverse l
        rw [hrev] at this
        simp only [List.head?_cons] at this
        rw [hlast] at this
        injection this
      rw [List.dropWhile_cons_of_neg (by simp [ha, hws]), ← hrev,
        List.reverse_reverse]
  unfold semiStrip
  rw [hu]
  show (if l.getLast? = some (';' : Char) then l.dropLast else l) = l
  rw [hlast]
  simp [hsemi]

/-- The trim stage is the identity when head and last are not
whitespace. -/
theorem jsTrimL_id {l : List Char} {c d : Char} (hh : l.head? = some c)
    (hc : isJsWs c = false) (hl : l.getLast? = some d) (hd : isJsWs d = false) :
    jsTrimL l = l := by
  unfold jsTrimL
  have h1 : l.dropWhile isJsWs = l := by
    cases l with
    | nil => rfl
    | cons a r =>
      simp only [List.head?_cons] at hh
      injection hh with hh
      rw [hh]
      exact List.dropWhile_cons_of_neg (by simp [hc])
  rw [h1]
  unfold dropTrailWs
  cases hrev : l.reverse with
  | nil =>
    simp only [List.reverse_eq_nil_iff] at hrev
    simp [hrev]
  | cons a t =>
    have ha : a = d := by
      have := List.head?_reverse l
      rw [hrev] at this
      simp only [List.head?_cons] at this
      rw [hl] at this
      injection this
    rw [List.dropWhile_cons_of_neg (by simp [ha, hd]), ← hrev,
      List.reverse_reverse]

/-- The greedy object match returns the whole text when it starts with
`{` and ends with `}`. -/
theorem objectMatch_whole {l : List Char} (hh : l.head? = some lbrace)
    (hl : l.getLast? = some rbrace) (hlen : 2 ≤ l.length) :
    objectMatch l = some l := by
  unfold objectMatch
  obtain ⟨r, hr⟩ : ∃ r, l = lbrace :: r := by
    cases l with
    | nil => simp at hh
    | cons a t =>
      simp only [List.head?_cons] at hh
      injection hh with hh
      exact ⟨t, by rw [hh]⟩
  have hfirst : l.findIdx? (· = lbrace) = some 0 := by
    rw [hr]
    simp [List.findIdx?_cons]
  obtain ⟨t, ht⟩ : ∃ t, l.reverse = rbrace :: t := by
    cases hrev : l.reverse with
    | nil =>
      simp only [List.reverse_eq_nil_iff] at hrev
      rw [hrev] at hh
      simp at hh
    | cons a t =>
      have := List.head?_reverse l
      rw [hrev] at this
      simp only [List.head?_cons] at this
      rw [hl] at this
      injection this with this
      exact ⟨t, by rw [← this]⟩
  have hlastidx : lastIdxOf rbrace l = some (l.length - 1) := by
    unfold lastIdxOf
    rw [ht]
    simp [List.findIdx?_cons]
  rw [hfirst, hlastidx]
  show (if 0 < l.length - 1 then some (List.drop 0 (List.take (l.length - 1 + 1) l))
    else none) = some l
  have hpos : 0 < l.length - 1 := by omega
  rw [if_pos hpos]
  have : l.length - 1 + 1 = l.length := by omega
  rw [this, List.take_length, List.drop_zero]

/-- The greedy array match returns the whole text when it starts with
`[` and ends with `]`. -/
theorem arrayMatch_whole {l : List Char} (hh : l.head? = some lbrack)
    (hl : l.getLast? = some rbrack) (hlen : 2 ≤ l.length) :
    arrayMatch l = some l := by
  unfold arrayMatch
  obtain ⟨r, hr⟩ : ∃ r, l = lbrack :: r := by
    cases l with
    | nil => simp at hh
    | cons a t =>
      simp only [List.head?_cons] at hh
      injection hh with hh
      exact ⟨t, by rw [hh]⟩
  have hfirst : l.findIdx? (· = lbrack) = some 0 := by
    rw [hr]
    simp [List.findIdx?_cons]
  obtain ⟨t, ht⟩ : ∃ t, l.reverse = rbrack :: t := by
    cases hrev : l.reverse with
    | nil =>
      simp only [List.reverse_eq_nil_iff] at hrev
      rw [hrev] at hh
      simp at hh
    | cons a t =>
      have := List.head?_reverse l
      rw [hrev] at this
      simp only [List.head?_cons] at this
      rw [hl] at this
      injection this with this
      exact ⟨t, by rw [← this]⟩
  have hlastidx : lastIdxOf rbrack l = some (l.length - 1) := by
    unfold lastIdxOf
    rw [ht]
    simp [List.findIdx?_cons]
  rw [hfirst, hlastidx]
  show (if 0 < l.length - 1 then some (List.drop 0 (List.take (l.length - 1 + 1) l))
    else none) = some l
  have hpos : 0 < l.length - 1 := by omega
  rw [if_pos hpos]
  have : l.length - 1 + 1 = l.length := by omega
  rw [this, List.take_length, List.drop_zero]

/-! ### Parse success yields a chunk decomposition -/

/-- JSON whitespace is a simple character. -/
theorem simpleChar_of_jsonWs {c : Char} (h : isJsonWs c = true) :
    simpleChar c = true := by
  simp [simpleChar, h]

/-- Hexadecimal digits are neither LF nor CR. -/
theorem hexDigit_not_nlcr {c : Char} (h : isHexDigit c = true) :
    isNlCr c = false := by
  cases hn : isNlCr c
  · rfl
  · simp only [isNlCr, Bool.or_eq_true, decide_eq_true_eq] at hn
    rcases hn with hn | hn <;> rw [hn] at h <;> exact absurd h (by decide)

/-- Characters outside the control range are neither LF nor CR. -/
theorem not_nlcr_of_not_ctl {c : Char} (h : ¬ c.toNat < 0x20) :
    isNlCr c = false := by
  cases hn : isNlCr c
  · rfl
  · simp only [isNlCr, Bool.or_eq_true, decide_eq_true_eq] at hn
    rcases hn with hn | hn <;> rw [hn] at h <;> exact absurd (by decide) h

/-- A line terminator that is not U+2028 or U+2029 is LF or CR. -/
theorem nlcr_of_lineTerm_not_ls {c : Char} (h : isLineTerm c = true)
    (hls : isLS c = false) : isNlCr c = true := by
  simp only [isLineTerm, Bool.or_eq_true, decide_eq_true_eq] at h
  simp only [isLS, Bool.or_eq_false_iff, decide_eq_false_iff_not] at hls
  simp only [isNlCr, Bool.or_eq_true, decide_eq_true_eq]
  rcases h with ((h | h) | h) | h
  · exact Or.inl h
  · exact Or.inr h
  · exact absurd h hls.1
  · exact absurd h hls.2

/-- Decomposition along the whitespace skipper. -/
theorem skipWs_decomp (l : List Char) :
    l = l.takeWhile isJsonWs ++ skipWs l :=
  (List.takeWhile_append_dropWhile isJsonWs l).symm

/-- The skipped prefix is simple. -/
theorem takeWhile_jsonWs_simple (l : List Char) :
    ∀ c ∈ l.takeWhile isJsonWs, simpleChar c = true := fun _ hc =>
  simpleChar_of_jsonWs (List.mem_takeWhile_imp hc)

/-- Digits are simple characters. -/
theorem simpleChar_of_digit {c : Char} (h : c.isDigit = true) :
    simpleChar c = true := by
  simp [simpleChar, h]

/-- The digit-run splitter consumes a simple prefix. -/
theorem digitRun_spec (l : List Char) :
    l = (digitRun l).1 ++ (digitRun l).2 ∧
      ∀ c ∈ (digitRun l).1, simpleChar c = true :=
  ⟨(List.takeWhile_append_dropWhile _ _).symm,
   fun _ hc => simpleChar_of_digit (List.mem_takeWhile_imp hc)⟩

/-- The number-sign reader consumes a simple prefix. -/
theorem numSign_spec (l : List Char) :
    l = (numSign l).1 ++ (numSign l).2 ∧
      ∀ c ∈ (numSign l).1, simpleChar c = true := by
  cases l with
  | nil => simp [numSign]
  | cons c r =>
    by_cases hm : c = '-'
    · subst hm
      refine ⟨by simp [numSign], ?_⟩
      intro d hd
      simp [numSign] at hd
      rw [hd]; decide
    · simp [numSign, hm]

/-- The exponent-sign reader consumes a simple prefix. -/
theorem numExpSign_spec (l : List Char) :
    l = (numExpSign l).1 ++ (numExpSign l).2 ∧
      ∀ c ∈ (numExpSign l).1, simpleChar c = true := by
  cases l with
  | nil => simp [numExpSign]
  | cons s r =>
    by_cases hs : s = '+' ∨ s = '-'
    · refine ⟨?_, ?_⟩
      · simp [numExpSign, hs]
      · intro d hd
        simp [numExpSign, hs] at hd
        rcases hs with hs | hs <;> rw [hd, hs] <;> decide
    · simp [numExpSign, hs]

/-- The integer-part reader consumes its simple token. -/
theorem numInt_consumes {l1 itok l2 : List Char}
    (h : numInt l1 = some (itok, l2)) :
    l1 = itok ++ l2 ∧ ∀ c ∈ itok, simpleChar c = true := by
  cases l1 with
  | nil => exact absurd h (by simp [numInt])
  | cons c r =>
    simp only [numInt] at h
    by_cases hd : c.isDigit = true
    · rw [if_neg (not_not_intro hd)] at h
      by_cases h0 : c = '0'
      · rw [if_pos h0] at h
        simp only [Option.some.injEq, Prod.mk.injEq] at h
        obtain ⟨h1, h2⟩ := h
        refine ⟨by rw [← h1, ← h2]; simp, ?_⟩
        intro d hdm
        rw [← h1] at hdm
        simp only [List.mem_singleton] at hdm
        rw [hdm]
        exact simpleChar_of_digit hd
      · rw [if_neg h0] at h
        simp only [Option.some.injEq] at h
        have h1 : (digitRun (c :: r)).1 = itok := by rw [h]
        have h2 : (digitRun (c :: r)).2 = l2 := by rw [h]
        rw [← h1, ← h2]
        exact digitRun_spec (c :: r)
    · rw [if_pos hd] at h
      exact absurd h (by simp)

/-- The fraction-part reader extends the token by simple characters. -/
theorem numFrac_consumes {itok l2 tok2 l3 : List Char}
    (h : numFrac itok l2 = some (tok2, l3))
    (hi : ∀ c ∈ itok, simpleChar c = true) :
    itok ++ l2 = tok2 ++ l3 ∧ ∀ c ∈ tok2, simpleChar c = true := by
  cases l2 with
  | nil =>
    simp only [numFrac, Option.some.injEq, Prod.mk.injEq] at h
    obtain ⟨h1, h2⟩ := h
    rw [← h1, ← h2]
    exact ⟨rfl, hi⟩
  | cons d r2 =>
    simp only [numFrac] at h
    by_cases hdot : d = '.'
    · rw [if_pos hdot] at h
      by_cases hds : (digitRun r2).1 = []
      · rw [if_pos hds] at h
        exact absurd h (by simp)
      · rw [if_neg hds] at h
        simp only [Option.some.injEq, Prod.mk.injEq] at h
        obtain ⟨h1, h2⟩ := h
        rw [← h1, ← h2]
        constructor
        · conv_lhs => rw [(digitRun_spec r2).1]
          simp
        · intro e he
          simp only [List.mem_append, List.mem_cons] at he
          rcases he with he | he | he
          · exact hi e he
          · rw [he, hdot]; decide
          · exact (digitRun_spec r2).2 e he
    · rw [if_neg hdot] at h
      simp only [Option.some.injEq, Prod.mk.injEq] at h
      obtain ⟨h1, h2⟩ := h
      rw [← h1, ← h2]
      exact ⟨rfl, hi⟩

/-- The exponent-part reader extends the token by simple characters. -/
theorem numExp_consumes {tok2 l3 tok3 l4 : List Char}
    (h : numExp tok2 l3 = some (tok3, l4))
    (ht : ∀ c ∈ tok2, simpleChar c = true) :
    tok2 ++ l3 = tok3 ++ l4 ∧ ∀ c ∈ tok3, simpleChar c = true := by
  cases l3 with
  | nil =>
    simp only [numExp, Option.some.injEq, Prod.mk.injEq] at h
    obtain ⟨h1, h2⟩ := h
    rw [← h1, ← h2]
    exact ⟨rfl, ht⟩
  | cons e r4 =>
    simp only [numExp] at h
    by_cases he : e = 'e' ∨ e = 'E'
    · rw [if_pos he] at h
      by_cases hds : (digitRun (numExpSign r4).2).1 = []
      · rw [if_pos hds] at h
        exact absurd h (by simp)
      · rw [if_neg hds] at h
        simp only [Option.some.injEq, Prod.mk.injEq] at h
        obtain ⟨h1, h2⟩ := h
        rw [← h1, ← h2]
        constructor
        · conv_lhs => rw [(numExpSign_spec r4).1,
            (digitRun_spec (numExpSign r4).2).1]
          simp
        · intro d hd
          rcases List.mem_append.1 hd with hd | hd
          · rcases List.mem_append.1 hd with hd | hd
            · exact ht d hd
            · rcases List.mem_cons.1 hd with hd | hd
              · rcases he with he | he <;> rw [hd, he] <;> decide
              · exact (numExpSign_spec r4).2 d hd
          · exact (digitRun_spec (numExpSign r4).2).2 d hd
    · rw [if_neg he] at h
      simp only [Option.some.injEq, Prod.mk.injEq] at h
      obtain ⟨h1, h2⟩ := h
      rw [← h1, ← h2]
      exact ⟨rfl, ht⟩

/-- A successful number parse consumes exactly the returned token, all
of whose characters are simple. -/
theorem parseNum_consumes {l tok rest : List Char}
    (h : parseNum l = some (tok, rest)) :
    l = tok ++ rest ∧ ∀ c ∈ tok, simpleChar c = true := by
  unfold parseNum at h
  cases hni : numInt (numSign l).2 with
  | none => rw [hni] at h; exact absurd h (by simp)
  | some p1 =>
    obtain ⟨itok, l2⟩ := p1
    rw [hni] at h
    simp only [] at h
    cases hnf : numFrac itok l2 with
    | none => rw [hnf] at h; exact absurd h (by simp)
    | some p2 =>
      obtain ⟨tok2, l3⟩ := p2
      rw [hnf] at h
      simp only [] at h
      cases hne : numExp tok2 l3 with
      | none => rw [hne] at h; exact absurd h (by simp)
      | some p3 =>
        obtain ⟨tok3, l4⟩ := p3
        rw [hne] at h
        simp only [Option.some.injEq, Prod.mk.injEq] at h
        obtain ⟨h1, h2⟩ := h
        obtain ⟨hsgn, hsgnc⟩ := numSign_spec l
        obtain ⟨hint, hintc⟩ := numInt_consumes hni
        obtain ⟨hfrac, hfracc⟩ := numFrac_consumes hnf hintc
        obtain ⟨hexp, hexpc⟩ := numExp_consumes hne hfracc
        constructor
        · rw [← h1, ← h2]
          conv_lhs => rw [hsgn, hint, hfrac, hexp]
          simp
        · intro c hc
          rw [← h1] at hc
          simp only [List.mem_append] at hc
          rcases hc with hc | hc
          · exact hsgnc c hc
          · exact hexpc c hc

/-- Inversion for the four-hex-digit reader. -/
theorem hex4_consumes {l : List Char} {code : Nat} {rest : List Char}
    (h : hex4 l = some (code, rest)) :
    ∃ h1 h2 h3 h4, l = h1 :: h2 :: h3 :: h4 :: rest ∧
      isNlCr h1 = false ∧ isNlCr h2 = false ∧
      isNlCr h3 = false ∧ isNlCr h4 = false := by
  unfold hex4 at h
  split at h
  · rename_i a b c d r
    split at h
    · rename_i hdig
      simp only [Option.some.injEq, Prod.mk.injEq] at h
      simp only [Bool.and_eq_true] at hdig
      exact ⟨a, b, c, d, by rw [h.2],
        hexDigit_not_nlcr hdig.1.1.1, hexDigit_not_nlcr hdig.1.1.2,
        hexDigit_not_nlcr hdig.1.2, hexDigit_not_nlcr hdig.2⟩
    · exact absurd h (by simp)
  · exact absurd h (by simp)

/-- The string-literal parser fails on empty input. -/
theorem parseStrRest_nil (f : Nat) : parseStrRest f [] = none := by
  cases f <;> simp [parseStrRest, parseStrRestStep]

/-- A successful string-literal parse consumes a raw body free of LF
and CR, and the closing quote. -/
theorem parseStrRest_consumes : ∀ (f : Nat) (l cs rest : List Char),
    parseStrRest f l = some (cs, rest) →
    ∃ b, l = b ++ dquote :: rest ∧ ∀ c ∈ b, isNlCr c = false := by
  intro f
  induction f with
  | zero =>
    intro l cs rest h
    exact absurd h (by simp [parseStrRest])
  | succ f ih =>
    intro l cs rest h
    cases l with
    | nil => exact absurd h (by simp [parseStrRest_nil])
    | cons c r =>
      rw [show parseStrRest (f + 1) (c :: r) =
        parseStrRestStep (parseStrRest f) (c :: r) from rfl] at h
      simp only [parseStrRestStep] at h
      by_cases hq : c = dquote
      · rw [if_pos hq] at h
        simp only [Option.some.injEq, Prod.mk.injEq] at h
        exact ⟨[], by simp [hq, h.2], by simp⟩
      · rw [if_neg hq] at h
        by_cases hb : c = bslash
        · rw [if_pos hb] at h
          cases r with
          | nil => exact absurd h (by simp)
          | cons e r2 =>
            simp only [] at h
            by_cases he1 : e = dquote
            · rw [if_pos he1] at h
              rw [Option.map_eq_some'] at h
              obtain ⟨p, hp, hpe⟩ := h
              obtain ⟨b', hb', hnf⟩ := ih r2 p.1 p.2 (by rw [hp])
              refine ⟨c :: e :: b', ?_, ?_⟩
              · have : rest = p.2 := by
                  have := congrArg Prod.snd hpe
                  simpa using this.symm
                rw [this, hb']
                simp
              · intro d hd
                rcases hd with _ | ⟨_, hd⟩
                · rw [hb]; decide
                · rcases hd with _ | ⟨_, hd⟩
                  · rw [he1]; decide
                  · exact hnf d hd
            · rw [if_neg he1] at h
              by_cases he2 : e = bslash
              · rw [if_pos he2] at h
                rw [Option.map_eq_some'] at h
                obtain ⟨p, hp, hpe⟩ := h
                obtain ⟨b', hb', hnf⟩ := ih r2 p.1 p.2 (by rw [hp])
                refine ⟨c :: e :: b', ?_, ?_⟩
                · have : rest = p.2 := by
                    have := congrArg Prod.snd hpe
                    simpa using this.symm
                  rw [this, hb']
                  simp
                · intro d hd
                  rcases hd with _ | ⟨_, hd⟩
                  · rw [hb]; decide
                  · rcases hd with _ | ⟨_, hd⟩
                    · rw [he2]; decide
                    · exact hnf d hd
              · rw [if_neg he2] at h
                by_cases he3 : e = '/'
                · rw [if_pos he3] at h
                  rw [Option.map_eq_some'] at h
                  obtain ⟨p, hp, hpe⟩ := h
                  obtain ⟨b', hb', hnf⟩ := ih r2 p.1 p.2 (by rw [hp])
                  refine ⟨c :: e :: b', ?_, ?_⟩
                  · have : rest = p.2 := by
                      have := congrArg Prod.snd hpe
                      simpa using this.symm
                    rw [this, hb']
                    simp
                  · intro d hd
                    rcases hd with _ | ⟨_, hd⟩
                    · rw [hb]; decide
                    · rcases hd with _ | ⟨_, hd⟩
                      · rw [he3]; decide
                      · exact hnf d hd
                · rw [if_neg he3] at h
                  by_cases he4 : e = 'b'
                  · rw [if_pos he4] at h
                    rw [Option.map_eq_some'] at h
                    obtain ⟨p, hp, hpe⟩ := h
                    obtain ⟨b', hb', hnf⟩ := ih r2 p.1 p.2 (by rw [hp])
                    refine ⟨c :: e :: b', ?_, ?_⟩
                    · have : rest = p.2 := by
                        have := congrArg Prod.snd hpe
                        simpa using this.symm
                      rw [this, hb']
                      simp
                    · intro d hd
                      rcases hd with _ | ⟨_, hd⟩
                      · rw [hb]; decide
                      · rcases hd with _ | ⟨_, hd⟩
                        · rw [he4]; decide
                        · exact hnf d hd
                  · rw [if_neg he4] at h
                    by_cases he5 : e = 'f'
                    · rw [if_pos he5] at h
                      rw [Option.map_eq_some'] at h
                      obtain ⟨p, hp, hpe⟩ := h
                      obtain ⟨b', hb', hnf⟩ := ih r2 p.1 p.2 (by rw [hp])
                      refine ⟨c :: e :: b', ?_, ?_⟩
                      · have : rest = p.2 := by
                          have := congrArg Prod.snd hpe
                          simpa using this.symm
                        rw [this, hb']
                        simp
                      · intro d hd
                        rcases hd with _ | ⟨_, hd⟩
                        · rw [hb]; decide
                        · rcases hd with _ | ⟨_, hd⟩
                          · rw [he5]; decide
                          · exact hnf d hd
                    · rw [if_neg he5] at h
                      by_cases he6 : e = 'n'
                      · rw [if_pos he6] at h
                        rw [Option.map_eq_some'] at h
                        obtain ⟨p, hp, hpe⟩ := h
                        obtain ⟨b', hb', hnf⟩ := ih r2 p.1 p.2 (by rw [hp])
                        refine ⟨c :: e :: b', ?_, ?_⟩
                        · have : rest = p.2 := by
                            have := congrArg Prod.snd hpe
                            simpa using this.symm
                          rw [this, hb']
                          simp
                        · intro d hd
                          rcases hd with _ | ⟨_, hd⟩
                          · rw [hb]; decide
                          · rcases hd with _ | ⟨_, hd⟩
                            · rw [he6]; decide
                            · exact hnf d hd
                      · rw [if_neg he6] at h
                        by_cases he7 : e = 'r'
                        · rw [if_pos he7] at h
                          rw [Option.map_eq_some'] at h
                          obtain ⟨p, hp, hpe⟩ := h
                          obtain ⟨b', hb', hnf⟩ := ih r2 p.1 p.2 (by rw [hp])
                          refine ⟨c :: e :: b', ?_, ?_⟩
                          · have : rest = p.2 := by
                              have := congrArg Prod.snd hpe
                              simpa using this.symm
                            rw [this, hb']
                            simp
                          · intro d hd
                            rcases hd with _ | ⟨_, hd⟩
                            · rw [hb]; decide
                            · rcases hd with _ | ⟨_, hd⟩
                              · rw [he7]; decide
                              · exact hnf d hd
                        · rw [if_neg he7] at h
                          by_cases he8 : e = 't'
                          · rw [if_pos he8] at h
                            rw [Option.map_eq_some'] at h
                            obtain ⟨p, hp, hpe⟩ := h
                            obtain ⟨b', hb', hnf⟩ := ih r2 p.1 p.2 (by rw [hp])
                            refine ⟨c :: e :: b', ?_, ?_⟩
                            · have : rest = p.2 := by
                                have := congrArg Prod.snd hpe
                                simpa using this.symm
                              rw [this, hb']
                              simp
                            · intro d hd
                              rcases hd with _ | ⟨_, hd⟩
                              · rw [hb]; decide
                              · rcases hd with _ | ⟨_, hd⟩
                                · rw [he8]; decide
                                · exact hnf d hd
                          · rw [if_neg he8] at h
                            by_cases he9 : e = 'u'
                            · rw [if_pos he9] at h
                              -- unicode escape
                              cases hx : hex4 r2 with
                              | none =>
                                rw [hx] at h
                                exact absurd h (by simp)
                              | some cr =>
                                obtain ⟨code, r3⟩ := cr
                                rw [hx] at h
                                simp only [] at h
                                obtain ⟨g1, g2, g3, g4, hr2, hg1, hg2, hg3, hg4⟩ :=
                                  hex4_consumes hx
                                by_cases hhi : 0xD800 ≤ code ∧ code ≤ 0xDBFF
                                · rw [if_pos hhi] at h
                                  cases r3 with
                                  | nil =>
                                    simp only [] at h
                                    rw [Option.map_eq_some'] at h
                                    obtain ⟨p, hp, hpe⟩ := h
                                    simp [parseStrRest_nil] at hp
                                  | cons b1 r3' =>
                                    cases r3' with
                                    | nil =>
                                      simp only [] at h
                                      rw [Option.map_eq_some'] at h
                                      obtain ⟨p, hp, hpe⟩ := h
                                      obtain ⟨b', hb', hnf⟩ := ih _ p.1 p.2 (by rw [hp])
                                      refine ⟨c :: e :: g1 :: g2 :: g3 :: g4 :: b', ?_, ?_⟩
                                      · have : rest = p.2 := by
                                          have := congrArg Prod.snd hpe
                                          simpa using this.symm
                                        rw [this, hr2, hb']
                                        simp
                                      · intro d hd
                                        simp only [List.mem_cons] at hd
                                        rcases hd with rfl | rfl | rfl | rfl | rfl | rfl | hd
                                        · rw [hb]; decide
                                        · rw [he9]; decide
                                        · exact hg1
                                        · exact hg2
                                        · exact hg3
                                        · exact hg4
                                        · exact hnf d hd
                                    | cons b2 r4 =>
                                      simp only [] at h
                                      by_cases hbu : b1 = bslash ∧ b2 = 'u'
                                      · rw [if_pos hbu] at h
                                        cases hx2 : hex4 r4 with
                                        | none =>
                                          rw [hx2] at h
                                          exact absurd h (by simp)
                                        | some cr2 =>
                                          obtain ⟨lo, r5⟩ := cr2
                                          rw [hx2] at h
                                          simp only [] at h
                                          obtain ⟨g5, g6, g7, g8, hr4, hg5, hg6, hg7, hg8⟩ :=
                                            hex4_consumes hx2
                                          by_cases hlo : 0xDC00 ≤ lo ∧ lo ≤ 0xDFFF
                                          · rw [if_pos hlo] at h
                                            rw [Option.map_eq_some'] at h
                                            obtain ⟨p, hp, hpe⟩ := h
                                            obtain ⟨b', hb', hnf⟩ := ih _ p.1 p.2 (by rw [hp])
                                            refine ⟨c :: e :: g1 :: g2 :: g3 :: g4 ::
                                              b1 :: b2 :: g5 :: g6 :: g7 :: g8 :: b', ?_, ?_⟩
                                            · have : rest = p.2 := by
                                                have := congrArg Prod.snd hpe
                                                simpa using this.symm
                                              rw [this, hr2, hr4, hb']
                                              simp
                                            · intro d hd
                                              simp only [List.mem_cons] at hd
                                              rcases hd with rfl | rfl | rfl | rfl | rfl | rfl
                                                | rfl | rfl | rfl | rfl | rfl | rfl | hd
                                              · rw [hb]; decide
                                              · rw [he9]; decide
                                              · exact hg1
                                              · exact hg2
                                              · exact hg3
                                              · exact hg4
                                              · rw [hbu.1]; decide
                                              · rw [hbu.2]; decide
                                              · exact hg5
                                              · exact hg6
                                              · exact hg7
                                              · exact hg8
                                              · exact hnf d hd
                                          · rw [if_neg hlo] at h
                                            rw [Option.map_eq_some'] at h
                                            obtain ⟨p, hp, hpe⟩ := h
                                            obtain ⟨b', hb', hnf⟩ := ih _ p.1 p.2 (by rw [hp])
                                            refine ⟨c :: e :: g1 :: g2 :: g3 :: g4 :: b', ?_, ?_⟩
                                            · have : rest = p.2 := by
                                                have := congrArg Prod.snd hpe
                                                simpa using this.symm
                                              rw [this, hr2, hb']
                                              simp
                                            · intro d hd
                                              simp only [List.mem_cons] at hd
                                              rcases hd with rfl | rfl | rfl | rfl | rfl | rfl | hd
                                              · rw [hb]; decide
                                              · rw [he9]; decide
                                              · exact hg1
                                              · exact hg2
                                              · exact hg3
                                              · exact hg4
                                              · exact hnf d hd
                                      · rw [if_neg hbu] at h
                                        rw [Option.map_eq_some'] at h
                                        obtain ⟨p, hp, hpe⟩ := h
                                        obtain ⟨b', hb', hnf⟩ := ih _ p.1 p.2 (by rw [hp])
                                        refine ⟨c :: e :: g1 :: g2 :: g3 :: g4 :: b', ?_, ?_⟩
                                        · have : rest = p.2 := by
                                            have := congrArg Prod.snd hpe
                                            simpa using this.symm
                                          rw [this, hr2, hb']
                                          simp
                                        · intro d hd
                                          simp only [List.mem_cons] at hd
                                          rcases hd with rfl | rfl | rfl | rfl | rfl | rfl | hd
                                          · rw [hb]; decide
                                          · rw [he9]; decide
                                          · exact hg1
                                          · exact hg2
                                          · exact hg3
                                          · exact hg4
                                          · exact hnf d hd
                                · rw [if_neg hhi] at h
                                  by_cases hlo2 : 0xDC00 ≤ code ∧ code ≤ 0xDFFF
                                  · rw [if_pos hlo2] at h
                                    rw [Option.map_eq_some'] at h
                                    obtain ⟨p, hp, hpe⟩ := h
                                    obtain ⟨b', hb', hnf⟩ := ih _ p.1 p.2 (by rw [hp])
                                    refine ⟨c :: e :: g1 :: g2 :: g3 :: g4 :: b', ?_, ?_⟩
                                    · have : rest = p.2 := by
                                        have := congrArg Prod.snd hpe
                                        simpa using this.symm
                                      rw [this, hr2, hb']
                                      simp
                                    · intro d hd
                                      simp only [List.mem_cons] at hd
                                      rcases hd with rfl | rfl | rfl | rfl | rfl | rfl | hd
                                      · rw [hb]; decide
                                      · rw [he9]; decide
                                      · exact hg1
                                      · exact hg2
                                      · exact hg3
                                      · exact hg4
                                      · exact hnf d hd
                                  · rw [if_neg hlo2] at h
                                    rw [Option.map_eq_some'] at h
                                    obtain ⟨p, hp, hpe⟩ := h
                                    obtain ⟨b', hb', hnf⟩ := ih _ p.1 p.2 (by rw [hp])
                                    refine ⟨c :: e :: g1 :: g2 :: g3 :: g4 :: b', ?_, ?_⟩
                                    · have : rest = p.2 := by
                                        have := congrArg Prod.snd hpe
                                        simpa using this.symm
                                      rw [this, hr2, hb']
                                      simp
                                    · intro d hd
                                      simp only [List.mem_cons] at hd
                                      rcases hd with rfl | rfl | rfl | rfl | rfl | rfl | hd
                                      · rw [hb]; decide
                                      · rw [he9]; decide
                                      · exact hg1
                                      · exact hg2
                                      · exact hg3
                                      · exact hg4
                                      · exact hnf d hd
                            · rw [if_neg he9] at h
                              exact absurd h (by simp)
        · rw [if_neg hb] at h
          by_cases hctl : c.toNat < 0x20
          · rw [if_pos hctl] at h
            exact absurd h (by simp)
          · rw [if_neg hctl] at h
            rw [Option.map_eq_some'] at h
            obtain ⟨p, hp, hpe⟩ := h
            obtain ⟨b', hb', hnf⟩ := ih r p.1 p.2 (by rw [hp])
            refine ⟨c :: b', ?_, ?_⟩
            · have : rest = p.2 := by
                have := congrArg Prod.snd hpe
                simpa using this.symm
              rw [this, hb']
              simp
            · intro d hd
              rcases hd with _ | ⟨_, hd⟩
              · exact not_nlcr_of_not_ctl hctl
              · exact hnf d hd

/-- One dispatch step only consumes simple characters and complete
string literals: if the remaining text has a chunk decomposition, so
does the whole text. -/
theorem parseStep_consumes
    (rec : PMode → List Char → Option (POut × List Char))
    (hrec : ∀ mode l out rest, rec mode l = some (out, rest) →
      Chunks rest → Chunks l) :
    ∀ mode l out rest, parseStep rec mode l = some (out, rest) →
      Chunks rest → Chunks l := by
  intro mode l out rest h hc
  cases mode with
  | value =>
    simp only [parseStep] at h
    have hldec := skipWs_decomp l
    cases hsw : skipWs l with
    | nil => rw [hsw] at h; exact absurd h (by simp)
    | cons c r =>
      rw [hsw] at h
      simp only [] at h
      rw [hsw] at hldec
      suffices hcr : Chunks (c :: r) by
        rw [hldec]
        exact Chunks.simpleRun (takeWhile_jsonWs_simple l) hcr
      by_cases h1 : c = lbrace
      · rw [if_pos h1] at h
        subst h1
        have hrdec := skipWs_decomp r
        cases hsw2 : skipWs r with
        | nil => rw [hsw2] at h; exact absurd h (by simp)
        | cons c2 r2 =>
          rw [hsw2] at h
          simp only [] at h
          rw [hsw2] at hrdec
          by_cases h2 : c2 = rbrace
          · rw [if_pos h2] at h
            subst h2
            have hre : r2 = rest := (Prod.ext_iff.mp (Option.some.inj h)).2
            refine Chunks.simple (by decide) ?_
            rw [hrdec]
            exact Chunks.simpleRun (takeWhile_jsonWs_simple r)
              (Chunks.simple (by decide) (by rw [hre]; exact hc))
          · rw [if_neg h2] at h
            cases hrc : rec (PMode.members []) (c2 :: r2) with
            | none => rw [hrc] at h; exact absurd h (by simp)
            | some pr =>
              obtain ⟨o2, rest2⟩ := pr
              rw [hrc] at h
              cases o2 with
              | val v => simp only [] at h; exact absurd h (by simp)
              | items xs => simp only [] at h; exact absurd h (by simp)
              | fields m =>
                simp only [] at h
                have hre : rest2 = rest := (Prod.ext_iff.mp (Option.some.inj h)).2
                refine Chunks.simple (by decide) ?_
                rw [hrdec]
                exact Chunks.simpleRun (takeWhile_jsonWs_simple r)
                  (hrec _ _ _ _ hrc (by rw [hre]; exact hc))
      · rw [if_neg h1] at h
        by_cases h2 : c = lbrack
        · rw [if_pos h2] at h
          subst h2
          have hrdec := skipWs_decomp r
          cases hsw2 : skipWs r with
          | nil => rw [hsw2] at h; exact absurd h (by simp)
          | cons c2 r2 =>
            rw [hsw2] at h
            simp only [] at h
            rw [hsw2] at hrdec
            by_cases h3 : c2 = rbrack
            · rw [if_pos h3] at h
              subst h3
              have hre : r2 = rest := (Prod.ext_iff.mp (Option.some.inj h)).2
              refine Chunks.simple (by decide) ?_
              rw [hrdec]
              exact Chunks.simpleRun (takeWhile_jsonWs_simple r)
                (Chunks.simple (by decide) (by rw [hre]; exact hc))
            · rw [if_neg h3] at h
              cases hrc : rec (PMode.elements []) (c2 :: r2) with
              | none => rw [hrc] at h; exact absurd h (by simp)
              | some pr =>
                obtain ⟨o2, rest2⟩ := pr
                rw [hrc] at h
                cases o2 with
                | val v => simp only [] at h; exact absurd h (by simp)
                | fields m => simp only [] at h; exact absurd h (by simp)
                | items xs =>
                  simp only [] at h
                  have hre : rest2 = rest :=
                    (Prod.ext_iff.mp (Option.some.inj h)).2
                  refine Chunks.simple (by decide) ?_
                  rw [hrdec]
                  exact Chunks.simpleRun (takeWhile_jsonWs_simple r)
                    (hrec _ _ _ _ hrc (by rw [hre]; exact hc))
        · rw [if_neg h2] at h
          by_cases h3 : c = dquote
          · rw [if_pos h3] at h
            subst h3
            cases hps : parseStrRest (r.length + 1) r with
            | none => rw [hps] at h; exact absurd h (by simp)
            | some p =>
              obtain ⟨cs, rest2⟩ := p
              rw [hps] at h
              simp only [] at h
              have hre : rest2 = rest := (Prod.ext_iff.mp (Option.some.inj h)).2
              obtain ⟨b, hb, hnf⟩ := parseStrRest_consumes _ _ _ _ hps
              rw [hb]
              exact Chunks.str hnf (by rw [hre]; exact hc)
          · rw [if_neg h3] at h
            by_cases h4 : c = 't'
            · rw [if_pos h4] at h
              subst h4
              split at h
              · rename_i r2
                have hre : r2 = rest := (Prod.ext_iff.mp (Option.some.inj h)).2
                exact Chunks.simple (by decide) (Chunks.simple (by decide)
                  (Chunks.simple (by decide) (Chunks.simple (by decide)
                    (by rw [hre]; exact hc))))
              · exact absurd h (by simp)
            · rw [if_neg h4] at h
              by_cases h5 : c = 'f'
              · rw [if_pos h5] at h
                subst h5
                split at h
                · rename_i r2
                  have hre : r2 = rest := (Prod.ext_iff.mp (Option.some.inj h)).2
                  exact Chunks.simple (by decide) (Chunks.simple (by decide)
                    (Chunks.simple (by decide) (Chunks.simple (by decide)
                      (Chunks.simple (by decide) (by rw [hre]; exact hc)))))
                · exact absurd h (by simp)
              · rw [if_neg h5] at h
                by_cases h6 : c = 'n'
                · rw [if_pos h6] at h
                  subst h6
                  split at h
                  · rename_i r2
                    have hre : r2 = rest :=
                      (Prod.ext_iff.mp (Option.some.inj h)).2
                    exact Chunks.simple (by decide) (Chunks.simple (by decide)
                      (Chunks.simple (by decide) (Chunks.simple (by decide)
                        (by rw [hre]; exact hc))))
                  · exact absurd h (by simp)
                · rw [if_neg h6] at h
                  cases hpn : parseNum (c :: r) with
                  | none => rw [hpn] at h; exact absurd h (by simp)
                  | some p =>
                    obtain ⟨tok, rest2⟩ := p
                    rw [hpn] at h
                    simp only [] at h
                    have hre : rest2 = rest :=
                      (Prod.ext_iff.mp (Option.some.inj h)).2
                    obtain ⟨hdecomp, htok⟩ := parseNum_consumes hpn
                    rw [hdecomp]
                    exact Chunks.simpleRun htok (by rw [hre]; exact hc)
  | members acc =>
    simp only [parseStep] at h
    cases l with
    | nil => exact absurd h (by simp)
    | cons c r =>
      simp only [] at h
      by_cases h1 : c = dquote
      · rw [if_pos h1] at h
        subst h1
        cases hps : parseStrRest (r.length + 1) r with
        | none => rw [hps] at h; exact absurd h (by simp)
        | some p =>
          obtain ⟨kcs, r2⟩ := p
          rw [hps] at h
          simp only [] at h
          obtain ⟨b, hb, hnf⟩ := parseStrRest_consumes _ _ _ _ hps
          have hr2dec := skipWs_decomp r2
          cases hsw : skipWs r2 with
          | nil => rw [hsw] at h; exact absurd h (by simp)
          | cons c2 r3 =>
            rw [hsw] at h
            simp only [] at h
            rw [hsw] at hr2dec
            by_cases h2 : c2 = ':'
            · rw [if_pos h2] at h
              cases hrc : rec PMode.value r3 with
              | none => rw [hrc] at h; exact absurd h (by simp)
              | some pv =>
                obtain ⟨ov, r4⟩ := pv
                rw [hrc] at h
                cases ov with
                | fields m => simp only [] at h; exact absurd h (by simp)
                | items xs => simp only [] at h; exact absurd h (by simp)
                | val v =>
                  simp only [] at h
                  have hr4dec := skipWs_decomp r4
                  cases hsw4 : skipWs r4 with
                  | nil => rw [hsw4] at h; exact absurd h (by simp)
                  | cons c3 r5 =>
                    rw [hsw4] at h
                    simp only [] at h
                    rw [hsw4] at hr4dec
                    suffices hc5 : Chunks r5 by
                      have hc4 : Chunks r4 := by
                        rw [hr4dec]
                        refine Chunks.simpleRun (takeWhile_jsonWs_simple r4) ?_
                        refine Chunks.simple ?_ hc5
                        by_cases h3 : c3 = ','
                        · rw [h3]; decide
                        · rw [if_neg h3] at h
                          by_cases h4 : c3 = rbrace
                          · rw [h4]; decide
                          · rw [if_neg h4] at h
                            exact absurd h (by simp)
                      have hc3' : Chunks r3 := hrec _ _ _ _ hrc hc4
                      have hc2' : Chunks r2 := by
                        rw [hr2dec]
                        exact Chunks.simpleRun (takeWhile_jsonWs_simple r2)
                          (Chunks.simple (by rw [h2]; decide) hc3')
                      rw [hb]
                      exact Chunks.str hnf hc2'
                    by_cases h3 : c3 = ','
                    · rw [if_pos h3] at h
                      have hchunk5 : Chunks (skipWs r5) := hrec _ _ _ _ h hc
                      rw [skipWs_decomp r5]
                      exact Chunks.simpleRun (takeWhile_jsonWs_simple r5) hchunk5
                    · rw [if_neg h3] at h
                      by_cases h4 : c3 = rbrace
                      · rw [if_pos h4] at h
                        have hre : r5 = rest :=
                          (Prod.ext_iff.mp (Option.some.inj h)).2
                        rw [hre]; exact hc
                      · rw [if_neg h4] at h
                        exact absurd h (by simp)
            · rw [if_neg h2] at h
              exact absurd h (by simp)
      · rw [if_neg h1] at h
        exact absurd h (by simp)
  | elements acc =>
    simp only [parseStep] at h
    cases hrc : rec PMode.value l with
    | none => rw [hrc] at h; exact absurd h (by simp)
    | some pv =>
      obtain ⟨ov, r⟩ := pv
      rw [hrc] at h
      cases ov with
      | fields m => simp only [] at h; exact absurd h (by simp)
      | items xs => simp only [] at h; exact absurd h (by simp)
      | val v =>
        simp only [] at h
        have hrdec := skipWs_decomp r
        cases hsw : skipWs r with
        | nil => rw [hsw] at h; exact absurd h (by simp)
        | cons c r2 =>
          rw [hsw] at h
          simp only [] at h
          rw [hsw] at hrdec
          by_cases h1 : c = ','
          · rw [if_pos h1] at h
            have hcr2 : Chunks r2 := hrec _ _ _ _ h hc
            refine hrec _ _ _ _ hrc ?_
            rw [hrdec]
            exact Chunks.simpleRun (takeWhile_jsonWs_simple r)
              (Chunks.simple (by rw [h1]; decide) hcr2)
          · rw [if_neg h1] at h
            by_cases h2 : c = rbrack
            · rw [if_pos h2] at h
              have hre : r2 = rest := (Prod.ext_iff.mp (Option.some.inj h)).2
              refine hrec _ _ _ _ hrc ?_
              rw [hrdec]
              exact Chunks.simpleRun (takeWhile_jsonWs_simple r)
                (Chunks.simple (by rw [h2]; decide) (by rw [hre]; exact hc))
            · rw [if_neg h2] at h
              exact absurd h (by simp)

/-- The parser core only consumes simple characters and complete
string literals. -/
theorem parseCore_consumes (f : Nat) : ∀ (mode : PMode) (l : List Char)
    (out : POut) (rest : List Char),
    parseCore f mode l = some (out, rest) → Chunks rest → Chunks l := by
  induction f with
  | zero =>
    intro mode l out rest h _
    exact absurd h (by simp [parseCore])
  | succ f ih =>
    intro mode l out rest h hc
    exact parseStep_consumes (parseCore f) ih mode l out rest h hc

/-- A string accepted by the strict parser decomposes into simple
characters and complete string literals with newline-free bodies. -/
theorem jsonParse_chunks {s : String} {v : Json} (h : jsonParse s = some v) :
    Chunks s.data := by
  unfold jsonParse at h
  split at h
  · rename_i x vv rr heq
    split at h
    · rename_i hws
      have hrest : Chunks rr := by
        rw [skipWs_decomp rr, hws]
        exact Chunks.simpleRun (takeWhile_jsonWs_simple rr) Chunks.nil
      exact parseCore_consumes _ _ _ _ _ heq hrest
    · exact absurd h (by simp)
  · exact absurd h (by simp)

/-- Trimming keeps only characters of the original list. -/
theorem mem_of_mem_jsTrimL {c : Char} {l : List Char}
    (h : c ∈ jsTrimL l) : c ∈ l := by
  unfold jsTrimL dropTrailWs at h
  rw [List.mem_reverse] at h
  have h2 := (List.dropWhile_sublist _).subset h
  rw [List.mem_reverse] at h2
  exact (List.dropWhile_sublist _).subset h2

/-- On a trimmed text with a chunk decomposition that starts with `\x7b`
and ends with `\x7d` and contains no U+2028/U+2029 line separator,
every stage of the candidate-selection pipeline is the identity: the
fence strippers find no line-leading or line-closing fence (string
literal bodies cannot hold LF or CR, and the separator terminators are
excluded by hypothesis), the declaration strippers find no keyword,
the semicolon stripper finds no trailing semicolon or whitespace, and
the greedy object match returns the whole text. -/
theorem matchedStage_object_id (text : String)
    (hh : (jsTrimL text.data).head? = some lbrace)
    (hl : (jsTrimL text.data).getLast? = some rbrace)
    (hls : ∀ c ∈ jsTrimL text.data, isLS c = false)
    (hch : Chunks (jsTrimL text.data)) :
    matchedStage text = jsTrimL text.data := by
  have hlen : 2 ≤ (jsTrimL text.data).length := by
    cases hcl : jsTrimL text.data with
    | nil => rw [hcl] at hh; exact absurd hh (by simp)
    | cons a r =>
      cases r with
      | nil =>
        rw [hcl] at hh hl
        have ha : a = lbrace := by simpa using hh
        have hb : a = rbrace := by simpa using hl
        rw [ha] at hb
        exact absurd hb (by decide)
      | cons b r2 => simp
  have hhead_nb : (jsTrimL text.data).head? ≠ some btick := by
    rw [hh]; decide
  have hnl : ∀ x t y, isLineTerm t = true → jsTrimL text.data = x ++ t :: y →
      y.head? ≠ some btick := by
    intro x t y ht hxy
    have htm : t ∈ jsTrimL text.data := by rw [hxy]; simp
    have hnc : isNlCr t = true := nlcr_of_lineTerm_not_ls ht (hls t htm)
    exact Chunks.head_ne_btick (hch.suffix_after_term x t y hnc hxy)
  have hbt : ∀ x z, jsTrimL text.data = x ++ btick :: z →
      (∀ c ∈ z.takeWhile isJsWs, isLineTerm c = false) ∧
      z.dropWhile isJsWs ≠ [] := by
    intro x z hxz
    obtain ⟨hrun, hstop⟩ := hch.after_btick x z hxz
    refine ⟨?_, hstop⟩
    intro c hc
    have hcm : c ∈ jsTrimL text.data := by
      rw [hxz]
      have hcz : c ∈ z := (List.takeWhile_sublist _).subset hc
      simp [hcz]
    cases hlt : isLineTerm c
    · rfl
    · have hnc := nlcr_of_lineTerm_not_ls hlt (hls c hcm)
      rw [hrun c hc] at hnc
      exact absurd hnc (by simp)
  have h1 : stripFenceOpen fenceJsonTag ((jsTrimL text.data).length + 1) true
      (jsTrimL text.data) = jsTrimL text.data :=
    stripFenceOpen_id fenceJsonTag rfl _ true _ (fun _ => hhead_nb) hnl
  have h2 : stripFenceOpen fenceTag ((jsTrimL text.data).length + 1) true
      (jsTrimL text.data) = jsTrimL text.data :=
    stripFenceOpen_id fenceTag rfl _ true _ (fun _ => hhead_nb) hnl
  have h3 : stripFenceClose ((jsTrimL text.data).length + 1)
      (jsTrimL text.data) = jsTrimL text.data :=
    stripFenceClose_id _ _ hbt
  have h4 : stripDecl ['c','o','n','s','t'] (jsTrimL text.data) =
      jsTrimL text.data :=
    stripDecl_id rfl (by rw [hh]; decide)
  have h5 : stripDecl ['l','e','t'] (jsTrimL text.data) =
      jsTrimL text.data :=
    stripDecl_id rfl (by rw [hh]; decide)
  have h6 : stripDecl ['v','a','r'] (jsTrimL text.data) =
      jsTrimL text.data :=
    stripDecl_id rfl (by rw [hh]; decide)
  have h7 : semiStrip (jsTrimL text.data) = jsTrimL text.data :=
    semiStrip_id hl (by decide) (by decide)
  have h8 : objectMatch (jsTrimL text.data) = some (jsTrimL text.data) :=
    objectMatch_whole hh hl hlen
  simp only [matchedStage]
  rw [h1, h2, h3, h4, h5, h6, h7, h8]

/-- Claim C2 (amended).  For an input that contains no U+2028/U+2029
line separator and whose trimmed form strict-parses as JSON and is
object-shaped (first character `\x7b`, last character `\x7d`),
`extractJson` returns the input unchanged apart from trimming
surrounding whitespace.  (The unrestricted claim is refuted by
`extractJson_changes_valid_array`: on the valid JSON input
`[\x7b"a":1\x7d]` the greedy object match rewrites the text to
`\x7b"a":1\x7d`.  The separator restriction is needed because the
multiline anchors of the fence-stripping regexes fire after a raw
U+2028/U+2029, which is legal inside a JSON string literal, so a fence
inside a string value of an otherwise valid object would be
stripped.) -/
theorem extractJson_valid_object_trims (s : String)
    (hp : (jsonParse (jsTrim s)).isSome = true)
    (hh : (jsTrim s).data.head? = some lbrace)
    (hl : (jsTrim s).data.getLast? = some rbrace)
    (hls : ∀ c ∈ s.data, isLS c = false) :
    extractJson s = jsTrim s := by
  obtain ⟨v, hv⟩ := Option.isSome_iff_exists.mp hp
  have hch : Chunks (jsTrim s).data := jsonParse_chunks hv
  have hdata : (jsTrim s).data = jsTrimL s.data := rfl
  rw [hdata] at hh hl hch
  have hms : matchedStage s = jsTrimL s.data :=
    matchedStage_object_id s hh hl
      (fun c hc => hls c (mem_of_mem_jsTrimL hc)) hch
  have hmk : String.mk (jsTrimL s.data) = jsTrim s := rfl
  unfold extractJson
  simp only [hms, hmk, hv]

/-- Witness for the amended claim C2 at a concrete object-shaped
input with surrounding whitespace. -/
theorem extractJson_valid_object_trims_witness :
    (jsonParse (jsTrim " \x7b\"a\":1\x7d ")).isSome = true ∧
    (jsTrim " \x7b\"a\":1\x7d ").data.head? = some lbrace ∧
    (jsTrim " \x7b\"a\":1\x7d ").data.getLast? = some rbrace ∧
    (∀ c ∈ (" \x7b\"a\":1\x7d " : String).data, isLS c = false) ∧
    extractJson " \x7b\"a\":1\x7d " = jsTrim " \x7b\"a\":1\x7d " :=
  ⟨by decide, by decide, by decide, by decide,
   extractJson_valid_object_trims " \x7b\"a\":1\x7d "
     (by decide) (by decide) (by decide) (by decide)⟩

/-- `extractJson` is the identity on any string that strict-parses, is
object-shaped, and contains no U+2028/U+2029 line separator: trimming
is the identity because the ends are braces, the pipeline stages are
the identity by the chunk decomposition, the greedy object match
returns the whole text, and the first parse attempt succeeds. -/
theorem extractJson_id_of_object (r : String)
    (hp : (jsonParse r).isSome = true)
    (hh : r.data.head? = some lbrace)
    (hl : r.data.getLast? = some rbrace)
    (hls : ∀ c ∈ r.data, isLS c = false) :
    extractJson r = r := by
  obtain ⟨v, hv⟩ := Option.isSome_iff_exists.mp hp
  have hch : Chunks r.data := jsonParse_chunks hv
  have htr : jsTrimL r.data = r.data :=
    jsTrimL_id hh (by decide) hl (by decide)
  have hms : matchedStage r = r.data := by
    have := matchedStage_object_id r (by rw [htr]; exact hh)
      (by rw [htr]; exact hl)
      (fun c hc => hls c (mem_of_mem_jsTrimL hc)) (by rw [htr]; exact hch)
    rw [htr] at this
    exact this
  have hmk : String.mk r.data = r := rfl
  unfold extractJson
  simp only [hms, hmk, hv]

/-- Claim C6 (amended).  Whenever `extractJson` returns a string that
strict-parses as valid JSON, is object-shaped (first character `\x7b`,
last character `\x7d`), and contains no U+2028/U+2029 line separator,
a second application of `extractJson` returns it unchanged.
(Unrestricted idempotence is refuted by `extractJson_not_idempotent`:
the scalar-valued output `"5 "` of `extractJson "5 ;"` parses, yet a
second application trims it to `"5"`.  The separator restriction is
needed because the multiline fence-stripping anchors fire after a raw
U+2028/U+2029 inside a string literal of the returned object.) -/
theorem extractJson_idempotent_object (s : String)
    (hp : (jsonParse (extractJson s)).isSome = true)
    (hh : (extractJson s).data.head? = some lbrace)
    (hl : (extractJson s).data.getLast? = some rbrace)
    (hls : ∀ c ∈ (extractJson s).data, isLS c = false) :
    extractJson (extractJson s) = extractJson s :=
  extractJson_id_of_object (extractJson s) hp hh hl hls

/-- Witness for the amended claim C6 at a concrete input whose
extracted candidate is an object. -/
theorem extractJson_idempotent_object_witness :
    (jsonParse (extractJson "x \x7b\"a\": 1\x7d")).isSome = true ∧
    (extractJson "x \x7b\"a\": 1\x7d").data.head? = some lbrace ∧
    (extractJson "x \x7b\"a\": 1\x7d").data.getLast? = some rbrace ∧
    (∀ c ∈ (extractJson "x \x7b\"a\": 1\x7d").data, isLS c = false) ∧
    extractJson (extractJson "x \x7b\"a\": 1\x7d") =
      extractJson "x \x7b\"a\": 1\x7d" :=
  ⟨by decide, by decide, by decide, by decide,
   extractJson_idempotent_object "x \x7b\"a\": 1\x7d"
     (by decide) (by decide) (by decide) (by decide)⟩

/-- Claim C9.  The value returned by `extractJson` is either the input
itself, character for character, or a string that strict-parses as
valid JSON. -/
theorem extractJson_output_parses_or_input (text : String) :
    extractJson text = text ∨ (jsonParse (extractJson text)).isSome = true := by
  unfold extractJson
  cases h1 : jsonParse (String.mk (matchedStage text)) with
  | some v => right; simp [h1]
  | none =>
    cases h2 : jsonParse (String.mk (repairChain (matchedStage text))) with
    | some v => right; simp [h1, h2]
    | none =>
      cases h3 : jsonParse (String.mk (convertStage (matchedStage text))) with
      | some v => right; simp [h1, h2, h3]
      | none => left; simp [h1, h2, h3]

end JsonExtractor
